import Mathlib

/-!
# Verification of the gamma table, index resolution and crossfade of `timedata`

Shallow embedding of

* `src/cpp/timedata/base/gammaTable.h` (`makeGammaTable`, `getGamma`),
* `src/cpp/timedata/color/cython_inl.h` (`resolvePythonIndex`, `magic_add`, `limit_min`,
  `limit_max`, `distance2`, `compare`),
* `src/cpp/timedata/color/color.h` (`distance2`),
* `src/tdsp/signal/fade.h` (`Fade::operator()`, `applySame`, `applyExtend`).

Conventions of the embedding.

* `float` arithmetic has two readings.  The claims that state the real-number reading (the
  entries of the gamma table), and those whose property does not depend on rounding (the
  Fade, the colour arithmetic on an ordered field), read `float` as the real numbers (`ℝ`):
  `std::pow` on a non-negative base is `Real.rpow`, `sqrt` is `Real.sqrt`, and nothing is
  rounded.  The claims on the computed table size, on `getGamma` and on `distance2` are
  settled on IEEE 754 binary32 arithmetic (namespaces `binary32` and `timedata.f32`).
* `uint8_t` values are natural numbers below `256`; `size_t` values are natural numbers.
* A `static_cast` from `float` to an unsigned integer type truncates toward zero, which is
  `Nat.floor` on the non-negative values that occur.
* An access to a `std::vector` outside its bounds is undefined behaviour in the source; the
  model makes it a failure (`none`).
-/

set_option autoImplicit false

noncomputable section

namespace timedata

/-! ## `gammaTable.h` -/

/-- The table size of `makeGammaTable`, the arithmetic read over the reals:
`iGamma = 1.0f / gamma`, `diff = 1.0f - std::pow(255.0f / 256.0f, iGamma)`,
`size = 4 * static_cast<size_t>(1.0f / diff)`.
In `float` arithmetic a finite `1.0f / diff` is at most `2^24`, so the product does not
wrap in `size_t`; the model keeps it as a natural number.  The computation in binary32 is
`f32.gammaTableSize`. -/
def gammaTableSize (gamma : ℝ) : ℕ :=
  let iGamma := 1 / gamma
  let diff := 1 - (255 / 256 : ℝ) ^ iGamma
  4 * ⌊1 / diff⌋₊

/-- The body of the fill loop of `makeGammaTable` at index `i`:
`width = 1.0f + (end - begin)` (the difference is taken in `int`),
`ratio = std::pow(float(i) / float(size), gamma)`, `gRaw = begin + ratio * width`,
`g = std::min(float(end), gRaw)`, and the pushed value is `static_cast<uint8_t>(g)`. -/
def gammaEntry (gamma : ℝ) (begin_ end_ size i : ℕ) : ℕ :=
  let width : ℝ := 1 + (((end_ : ℤ) - (begin_ : ℤ) : ℤ) : ℝ)
  let ratio : ℝ := ((i : ℝ) / (size : ℝ)) ^ gamma
  let gRaw : ℝ := (begin_ : ℝ) + ratio * width
  let g : ℝ := min (end_ : ℝ) gRaw
  ⌊g⌋₊ % 256

/-- The function `makeGammaTable(gamma, begin, end)`: the loop pushes `gammaEntry` for
`i = 0, ..., size - 1` in this order. -/
def makeGammaTable (gamma : ℝ) (begin_ end_ : ℕ) : List ℕ :=
  (List.range (gammaTableSize gamma)).map (gammaEntry gamma begin_ end_ (gammaTableSize gamma))

/-- The index at which `getGamma(table, x)` reads, the arithmetic read over the reals (the
computation in binary32 is `f32.getGammaIndex`):
`size = static_cast<size_t>(table.size() * std::max(x, 0.0f))`, then
`std::min(size, table.size() - 1)`.  For an empty table `table.size() - 1` wraps to the
largest `size_t` in the source and truncates to `0` here; `size` is `0` then, so the
minimum is `0` either way. -/
def getGammaIndex (table : List ℕ) (x : ℝ) : ℕ :=
  let size := ⌊(table.length : ℝ) * max x 0⌋₊
  min size (table.length - 1)

/-- The function `getGamma(table, x)`, the arithmetic read over the reals; `none` stands
for a read outside the table. -/
def getGamma (table : List ℕ) (x : ℝ) : Option ℕ :=
  table[getGammaIndex table x]?

end timedata

end

/-! ## Binary32 arithmetic

The claims that do not state the real-number reading are settled on a model of `float`
as IEEE 754 binary32: every operation yields the exact result rounded to the nearest
binary32 number, ties to even, with subnormal numbers, overflow to an infinity, and NaN.
The sign of a zero is not kept, and no operation is fused or carried out in a wider
format. -/

noncomputable section

namespace binary32

def roundEven (m : ℝ) : ℤ :=
  if m - ⌊m⌋ < 1 / 2 then ⌊m⌋
  else if 1 / 2 < m - ⌊m⌋ then ⌊m⌋ + 1
  else if Even ⌊m⌋ then ⌊m⌋ else ⌊m⌋ + 1

def expo (x : ℝ) : ℤ := max (Int.log 2 |x|) (-126)

def rnd (x : ℝ) : ℝ := (roundEven (x / 2 ^ (expo x - 23)) : ℝ) * 2 ^ (expo x - 23)

end binary32

end

noncomputable section

namespace binary32

/-- A value of type `float`: a finite real (a binary32 number), an infinity or NaN.  The
sign of a zero is not kept. -/
inductive F32 where
  | finite (x : ℝ)
  | pinf
  | ninf
  | nan

/-- The result of an operation whose exact value is `x`: the rounded value, or an infinity
when the rounded value is beyond the largest binary32 number. -/
def toF32 (x : ℝ) : F32 :=
  if 2 ^ 128 ≤ rnd x then F32.pinf
  else if rnd x ≤ -2 ^ 128 then F32.ninf
  else F32.finite (rnd x)

/-- Unary minus. -/
def fneg : F32 → F32
  | F32.finite x => F32.finite (-x)
  | F32.pinf => F32.ninf
  | F32.ninf => F32.pinf
  | F32.nan => F32.nan

/-- Addition of two floats. -/
def fadd : F32 → F32 → F32
  | F32.finite a, F32.finite b => toF32 (a + b)
  | F32.nan, _ => F32.nan
  | _, F32.nan => F32.nan
  | F32.pinf, F32.ninf => F32.nan
  | F32.ninf, F32.pinf => F32.nan
  | F32.pinf, _ => F32.pinf
  | _, F32.pinf => F32.pinf
  | F32.ninf, _ => F32.ninf
  | _, F32.ninf => F32.ninf

/-- Subtraction of two floats. -/
def fsub (a b : F32) : F32 := fadd a (fneg b)

/-- The infinity that a product or quotient with a non-zero finite factor `a` and a
positive infinity yields. -/
def infWithSign (a : ℝ) : F32 := if 0 < a then F32.pinf else F32.ninf

/-- Multiplication of two floats. -/
def fmul : F32 → F32 → F32
  | F32.finite a, F32.finite b => toF32 (a * b)
  | F32.nan, _ => F32.nan
  | _, F32.nan => F32.nan
  | F32.finite a, F32.pinf => if a = 0 then F32.nan else infWithSign a
  | F32.finite a, F32.ninf => if a = 0 then F32.nan else infWithSign (-a)
  | F32.pinf, F32.finite b => if b = 0 then F32.nan else infWithSign b
  | F32.ninf, F32.finite b => if b = 0 then F32.nan else infWithSign (-b)
  | F32.pinf, F32.pinf => F32.pinf
  | F32.ninf, F32.ninf => F32.pinf
  | F32.pinf, F32.ninf => F32.ninf
  | F32.ninf, F32.pinf => F32.ninf

/-- Division of two floats; a zero divisor is taken as `+0`. -/
def fdiv : F32 → F32 → F32
  | F32.finite a, F32.finite b =>
    if b = 0 then (if a = 0 then F32.nan else infWithSign a) else toF32 (a / b)
  | F32.nan, _ => F32.nan
  | _, F32.nan => F32.nan
  | F32.finite _, F32.pinf => F32.finite 0
  | F32.finite _, F32.ninf => F32.finite 0
  | F32.pinf, F32.finite b => if b < 0 then F32.ninf else F32.pinf
  | F32.ninf, F32.finite b => if b < 0 then F32.pinf else F32.ninf
  | F32.pinf, F32.pinf => F32.nan
  | F32.pinf, F32.ninf => F32.nan
  | F32.ninf, F32.pinf => F32.nan
  | F32.ninf, F32.ninf => F32.nan

/-- The comparison `a < b` of two floats; it is false when one of them is NaN. -/
def flt : F32 → F32 → Bool
  | F32.finite a, F32.finite b => decide (a < b)
  | F32.nan, _ => false
  | _, F32.nan => false
  | F32.ninf, F32.ninf => false
  | F32.ninf, _ => true
  | _, F32.ninf => false
  | F32.pinf, _ => false
  | _, F32.pinf => true

/-- The call `std::max(a, b)`, which is `(a < b) ? b : a`. -/
def fmax (a b : F32) : F32 := if flt a b then b else a

/-- The call `std::pow(255.0f / 256.0f, y)`, taken as correctly rounded; the base
`255.0f / 256.0f` is the binary32 number `0.99609375`, below `1`. -/
def pow255 : F32 → F32
  | F32.finite y => toF32 ((255 / 256 : ℝ) ^ y)
  | F32.pinf => F32.finite 0
  | F32.ninf => F32.pinf
  | F32.nan => F32.nan

/-- The conversion `float(n)` of a `size_t`. -/
def ofSizeT (n : ℕ) : F32 := toF32 (n : ℝ)

/-- The conversion `static_cast<size_t>(p)` of a float: the value truncated toward zero;
undefined (`none`) when the truncated value is not a `size_t`, so for `p ≤ -1`,
`p ≥ 2^64`, an infinity or NaN. -/
def toSizeT : F32 → Option ℕ
  | F32.finite p => if -1 < p ∧ p < 2 ^ 64 then some ⌊p⌋₊ else none
  | _ => none

end binary32

namespace timedata
namespace f32

open binary32

/-- The table size of `makeGammaTable` in binary32 arithmetic:
`iGamma = 1.0f / gamma`, `diff = 1.0f - std::pow(255.0f / 256.0f, iGamma)`,
`size = 4 * static_cast<size_t>(1.0f / diff)`; `none` when the conversion is undefined.
The fill loop pushes exactly `size` entries, so this is the length of the table. -/
def gammaTableSize (gamma : F32) : Option ℕ :=
  let iGamma := fdiv (F32.finite 1) gamma
  let diff := fsub (F32.finite 1) (pow255 iGamma)
  match toSizeT (fdiv (F32.finite 1) diff) with
  | some n => some (4 * n % 2 ^ 64)
  | none => none

/-- The index at which `getGamma(table, x)` reads, in binary32 arithmetic:
`size = static_cast<size_t>(table.size() * std::max(x, 0.0f))` with the size converted to
`float` and the product rounded, then `std::min(size, table.size() - 1)`; `none` when the
conversion to `size_t` is undefined. -/
def getGammaIndex (table : List ℕ) (x : F32) : Option ℕ :=
  match toSizeT (fmul (ofSizeT table.length) (fmax x (F32.finite 0))) with
  | some size => some (min size (table.length - 1))
  | none => none

/-- The function `getGamma(table, x)` in binary32 arithmetic; `none` stands for undefined
behaviour (the conversion, or a read outside the table). -/
def getGamma (table : List ℕ) (x : F32) : Option ℕ :=
  match getGammaIndex table x with
  | some i => table[i]?
  | none => none

end f32
end timedata

end

namespace timedata
namespace color

/-! ## `cython_inl.h`: `resolvePythonIndex` -/

/-- Conversion of an integer value to `int` (32 bits, two's complement). -/
def toInt (z : ℤ) : ℤ := (z + 2 ^ 31) % 2 ^ 32 - 2 ^ 31

/-- Conversion of an integer value to `size_t` (64 bits, unsigned). -/
def toSizeT (z : ℤ) : ℤ := z % 2 ^ 64

/-- The function `resolvePythonIndex(int& key, size_t size)`.  The result is the returned
`bool` together with the value left in `key`.  In `key += size` the sum is taken in
`size_t` and converted back to `int`; in `key < int(size)` the size is converted to `int`. -/
def resolvePythonIndex (key : ℤ) (size : ℕ) : Bool × ℤ :=
  let key1 := if key < 0 then toInt (toSizeT (toSizeT key + (size : ℤ))) else key
  (decide (key1 ≥ 0 ∧ key1 < toInt (size : ℤ)), key1)

/-! ## `color.h` and `cython_inl.h`: colour arithmetic

The colour templates are generic in the colour type.  A colour with three channels is a
function on `Fin 3`, `x[i]` being `x i`; the channel type `α` is any linearly ordered field
(`ℝ` for the reading of `float`, `ℚ` for an executable instance).  The two `distance2`
functions, whose zero test depends on underflow, are on binary32 channels. -/

/-- The function `magic_add(x, y)`: `{x[0] + y[0], x[1] + y[1], x[2] + y[2]}`. -/
def magic_add {α : Type} [LinearOrderedField α] (x y : Fin 3 → α) : Fin 3 → α :=
  ![x 0 + y 0, x 1 + y 1, x 2 + y 2]

/-- The function `limit_min(x, y)`: the channel-wise `std::max`. -/
def limit_min {α : Type} [LinearOrderedField α] (x y : Fin 3 → α) : Fin 3 → α :=
  ![max (x 0) (y 0), max (x 1) (y 1), max (x 2) (y 2)]

/-- The function `limit_max(x, y)`: the channel-wise `std::min`. -/
def limit_max {α : Type} [LinearOrderedField α] (x y : Fin 3 → α) : Fin 3 → α :=
  ![min (x 0) (y 0), min (x 1) (y 1), min (x 2) (y 2)]

/-- The function `compare(x, y)` with a `float` result: each `if (auto a = x[i] - y[i])`
returns `a` when it is not zero; `0.0f` is returned when the three differences are zero. -/
def compare {α : Type} [LinearOrderedField α] (x y : Fin 3 → α) : α :=
  if x 0 - y 0 ≠ 0 then x 0 - y 0
  else if x 1 - y 1 ≠ 0 then x 1 - y 1
  else if x 2 - y 2 ≠ 0 then x 2 - y 2
  else 0

/-- Lexicographic order on (channel 0, channel 1, channel 2), as the specification words
it: `x` is smaller than `y` when the first channel on which they differ is smaller in `x`. -/
def lexLt {α : Type} [LinearOrderedField α] (x y : Fin 3 → α) : Prop :=
  x 0 < y 0 ∨ (x 0 = y 0 ∧ (x 1 < y 1 ∨ (x 1 = y 1 ∧ x 2 < y 2)))

end color

end timedata

noncomputable section

namespace timedata

open binary32

namespace color

end color

end timedata

end

noncomputable section

namespace tdsp

/-! ## `fade.h` -/

/-- The enumeration `Fade::Type`. -/
inductive FadeType where
  | linear
  | sqr
  | sqrt
  | size
  deriving DecidableEq

/-- The fields of `struct Fade`, with their default values. -/
structure Fade where
  begin_ : ℝ := 0
  end_ : ℝ := 1
  fader : ℝ := 0
  type : FadeType := FadeType.linear

/-- Modelled from the spec: `invert` of `tdsp/base/math.h` is not among the sources; the
second ratio of the crossfade is `begin + (1 - fader) * (end - begin)`, so `invert` is the
complement of a ratio in `[0, 1]`. -/
def invert (x : ℝ) : ℝ := 1 - x

/-- Modelled from the spec: `signum` of `tdsp/base/math.h` is not among the sources; it is
the sign of its argument (`-1`, `0` or `1`), so that `r * r * signum r` is `r * |r|`. -/
def signum (x : ℝ) : ℝ := if x < 0 then -1 else if 0 < x then 1 else 0

/-- The pair `(xratio, yratio)` that `Fade::operator()` holds after its `switch`. -/
def Fade.ratios (f : Fade) : ℝ × ℝ :=
  let xratio := f.begin_ + f.fader * (f.end_ - f.begin_)
  let yratio := f.begin_ + invert f.fader * (f.end_ - f.begin_)
  match f.type with
  | FadeType.sqr => (xratio * xratio * signum xratio, yratio * yratio * signum yratio)
  | FadeType.sqrt => (Real.sqrt |xratio| * signum xratio, Real.sqrt |yratio| * signum yratio)
  | _ => (xratio, yratio)

/-- The call `fade(x, y)` of `Fade::operator()`: `return xratio * x + yratio + y;`. -/
def Fade.apply (f : Fade) (x y : ℝ) : ℝ :=
  let r := f.ratios
  r.1 * x + r.2 + y

/-- The loop of `applySame` from index `i` on:
`for (; i < out.size(); ++i) out[i] = fade(in1[i], in2[i]);`.
Reading `in1[i]` or `in2[i]` outside the collection is a failure. -/
def applySameFrom (fade : Fade) (in1 in2 : List ℝ) (i : ℕ) (out : List ℝ) :
    Option (List ℝ) :=
  if i < out.length then
    match in1[i]?, in2[i]? with
    | some a, some b => applySameFrom fade in1 in2 (i + 1) (out.set i (fade.apply a b))
    | _, _ => none
  else some out
termination_by out.length - i
decreasing_by simp only [List.length_set]; omega

/-- The function `applySame(fade, in1, in2, out)` on collections of `float`; the result is
the final content of `out`. -/
def applySame (fade : Fade) (in1 in2 out : List ℝ) : Option (List ℝ) :=
  applySameFrom fade in1 in2 0 out

/-- The call `out.resize(size)` of a `std::vector`: the first `size` elements are kept and
missing ones are value-initialised (`dflt`). -/
def resize {α : Type} (out : List α) (size : ℕ) (dflt : α) : List α :=
  out.take size ++ List.replicate (size - out.length) dflt

/-- The lambda `get` of `applyExtend`: `i < c.size() ? c[i] : zero`. -/
def get (zero : List ℝ) (c : List (List ℝ)) (i : ℕ) : List ℝ :=
  if h : i < c.length then c.get ⟨i, h⟩ else zero

/-- The loop of `applyExtend` from index `i` on:
`for (; i < size; ++i) applySame(fade, get(in1, i), get(in2, i), out[i]);`. -/
def applyExtendFrom (fade : Fade) (zero : List ℝ) (in1 in2 : List (List ℝ)) (size : ℕ)
    (i : ℕ) (out : List (List ℝ)) : Option (List (List ℝ)) :=
  if i < size then
    match out[i]? with
    | none => none
    | some o =>
      match applySame fade (get zero in1 i) (get zero in2 i) o with
      | none => none
      | some o1 => applyExtendFrom fade zero in1 in2 size (i + 1) (out.set i o1)
  else some out
termination_by size - i

/-- The function `applyExtend(fade, in1, in2, out)` on collections of samples, a sample being
a fixed-size array of `channels` floats (a list of that length here).  The sample `zero` and
the samples added by `resize` have every channel `0`. -/
def applyExtend (channels : ℕ) (fade : Fade) (in1 in2 out : List (List ℝ)) :
    Option (List (List ℝ)) :=
  let size := max in1.length in2.length
  let out1 := resize out size (List.replicate channels 0)
  let zero : List ℝ := List.replicate channels 0
  applyExtendFrom fade zero in1 in2 size 0 out1

/-- The curve of a Fade as the specification words it: `linear` (and every type other than
`sqr` and `sqrt`) leaves the ratio unchanged, `sqr` replaces it by `ratio * |ratio|`, and
`sqrt` replaces it by `sqrt(|ratio|) * sign(ratio)`. -/
def specCurve (t : FadeType) (r : ℝ) : ℝ :=
  match t with
  | FadeType.sqr => r * |r|
  | FadeType.sqrt => Real.sqrt |r| * Real.sign r
  | _ => r

end tdsp

end

/-! ## Lemmas on the gamma table -/

namespace timedata

theorem gammaDiff_pos {gamma : ℝ} (hg : 0 < gamma) :
    0 < 1 - (255 / 256 : ℝ) ^ (1 / gamma) := by
  have h : (255 / 256 : ℝ) ^ (1 / gamma) < 1 :=
    Real.rpow_lt_one (by norm_num) (by norm_num) (by positivity)
  linarith

theorem gammaDiff_lt_one (gamma : ℝ) :
    1 - (255 / 256 : ℝ) ^ (1 / gamma) < 1 := by
  have h : 0 < (255 / 256 : ℝ) ^ (1 / gamma) := Real.rpow_pos_of_pos (by norm_num) _
  linarith

theorem gammaTableSize_pos {gamma : ℝ} (hg : 0 < gamma) : 0 < gammaTableSize gamma := by
  unfold gammaTableSize
  have hd := gammaDiff_pos hg
  have hd1 := gammaDiff_lt_one gamma
  have h1 : 1 ≤ 1 / (1 - (255 / 256 : ℝ) ^ (1 / gamma)) := by
    rw [le_div_iff₀ hd]; linarith
  have h2 : 0 < ⌊1 / (1 - (255 / 256 : ℝ) ^ (1 / gamma))⌋₊ := Nat.floor_pos.mpr h1
  simp only
  omega

theorem gammaRatio_nonneg (gamma : ℝ) (size i : ℕ) :
    0 ≤ ((i : ℝ) / (size : ℝ)) ^ gamma :=
  Real.rpow_nonneg (by positivity) _

theorem gammaRatio_le_one {gamma : ℝ} (hg : 0 < gamma) {size i : ℕ} (hi : i < size) :
    ((i : ℝ) / (size : ℝ)) ^ gamma ≤ 1 := by
  have hs : (0 : ℝ) < size := by exact_mod_cast (by omega : 0 < size)
  apply Real.rpow_le_one (by positivity) _ hg.le
  rw [div_le_one hs]
  exact_mod_cast hi.le

theorem gammaRatio_mono {gamma : ℝ} (hg : 0 < gamma) (size : ℕ) {i j : ℕ} (hij : i ≤ j) :
    ((i : ℝ) / (size : ℝ)) ^ gamma ≤ ((j : ℝ) / (size : ℝ)) ^ gamma := by
  apply Real.rpow_le_rpow (by positivity) _ hg.le
  apply div_le_div_of_nonneg_right _ (by positivity)
  exact_mod_cast hij

theorem gammaEntry_of_end_lt {gamma : ℝ} (hg : 0 < gamma) {begin_ end_ size i : ℕ}
    (he : end_ ≤ 255) (hlt : end_ < begin_) (hi : i < size) :
    gammaEntry gamma begin_ end_ size i = end_ := by
  unfold gammaEntry
  have hr1 := gammaRatio_le_one hg hi
  have hr0 := gammaRatio_nonneg gamma size i
  have hw : (1 : ℝ) + (((end_ : ℤ) - (begin_ : ℤ) : ℤ) : ℝ) ≤ 0 := by
    have : (1 : ℤ) + ((end_ : ℤ) - (begin_ : ℤ)) ≤ 0 := by omega
    exact_mod_cast this
  have hb : ((end_ : ℝ)) ≤ (begin_ : ℝ) + ((i : ℝ) / (size : ℝ)) ^ gamma *
      (1 + (((end_ : ℤ) - (begin_ : ℤ) : ℤ) : ℝ)) := by
    have h1 : (1 + (((end_ : ℤ) - (begin_ : ℤ) : ℤ) : ℝ)) ≤
        ((i : ℝ) / (size : ℝ)) ^ gamma * (1 + (((end_ : ℤ) - (begin_ : ℤ) : ℤ) : ℝ)) := by
      nlinarith
    have h2 : ((((end_ : ℤ) - (begin_ : ℤ) : ℤ) : ℝ)) = (end_ : ℝ) - (begin_ : ℝ) := by
      push_cast; ring
    rw [h2] at h1 ⊢
    linarith
  simp only
  rw [min_eq_left hb, Nat.floor_natCast]
  omega

theorem gammaEntry_of_le {gamma : ℝ} {begin_ end_ size i : ℕ}
    (he : end_ ≤ 255) :
    gammaEntry gamma begin_ end_ size i =
      ⌊min (end_ : ℝ) ((begin_ : ℝ) + ((i : ℝ) / (size : ℝ)) ^ gamma *
        (1 + ((end_ : ℝ) - (begin_ : ℝ))))⌋₊ := by
  unfold gammaEntry
  have h2 : ((((end_ : ℤ) - (begin_ : ℤ) : ℤ) : ℝ)) = (end_ : ℝ) - (begin_ : ℝ) := by
    push_cast; ring
  simp only [h2]
  apply Nat.mod_eq_of_lt
  have h3 : ⌊min (end_ : ℝ) ((begin_ : ℝ) + ((i : ℝ) / (size : ℝ)) ^ gamma *
        (1 + ((end_ : ℝ) - (begin_ : ℝ))))⌋₊ ≤ ⌊(end_ : ℝ)⌋₊ :=
    Nat.floor_le_floor (min_le_left _ _)
  rw [Nat.floor_natCast] at h3
  omega

theorem gammaEntry_mono {gamma : ℝ} (hg : 0 < gamma) {begin_ end_ size i j : ℕ}
    (he : end_ ≤ 255) (hij : i ≤ j) (hj : j < size) :
    gammaEntry gamma begin_ end_ size i ≤ gammaEntry gamma begin_ end_ size j := by
  rcases Nat.lt_or_ge end_ begin_ with hlt | hle
  · rw [gammaEntry_of_end_lt hg he hlt (lt_of_le_of_lt hij hj),
      gammaEntry_of_end_lt hg he hlt hj]
  · rw [gammaEntry_of_le he, gammaEntry_of_le he]
    apply Nat.floor_le_floor
    apply min_le_min le_rfl
    have hw : (0 : ℝ) ≤ 1 + ((end_ : ℝ) - (begin_ : ℝ)) := by
      have : (begin_ : ℝ) ≤ (end_ : ℝ) := by exact_mod_cast hle
      linarith
    have hr := gammaRatio_mono hg size hij
    nlinarith

theorem makeGammaTable_length (gamma : ℝ) (begin_ end_ : ℕ) :
    (makeGammaTable gamma begin_ end_).length = gammaTableSize gamma := by
  simp [makeGammaTable]

theorem makeGammaTable_get (gamma : ℝ) (begin_ end_ : ℕ) (i : ℕ)
    (hi : i < (makeGammaTable gamma begin_ end_).length) :
    (makeGammaTable gamma begin_ end_).get ⟨i, hi⟩ =
      gammaEntry gamma begin_ end_ (gammaTableSize gamma) i := by
  simp [makeGammaTable]

/-- C1: for `gamma > 0` and 8-bit `begin`, `end`, the table of `makeGammaTable` is
monotonically non-decreasing: `table[i] ≤ table[j]` for all indices `i ≤ j` below the table
length (arithmetic read over the reals, the final cast truncating). -/
theorem makeGammaTable_monotone (gamma : ℝ) (begin_ end_ : ℕ) (hg : 0 < gamma)
    (_hb : begin_ ≤ 255) (he : end_ ≤ 255) (i j : ℕ) (hij : i ≤ j)
    (hj : j < (makeGammaTable gamma begin_ end_).length) :
    (makeGammaTable gamma begin_ end_).get ⟨i, lt_of_le_of_lt hij hj⟩ ≤
      (makeGammaTable gamma begin_ end_).get ⟨j, hj⟩ := by
  rw [makeGammaTable_get, makeGammaTable_get]
  have hj2 : j < gammaTableSize gamma := by
    rw [makeGammaTable_length] at hj; exact hj
  exact gammaEntry_mono hg he hij hj2

end timedata

/-! ## The claims on the gamma table -/

namespace timedata

/-- Witness of C1 at `gamma = 1`, `begin = 0`, `end = 255`, `i = 0`, `j = 1`. -/
theorem makeGammaTable_monotone_witness :
    ∃ hj : 1 < (makeGammaTable 1 0 255).length,
      (makeGammaTable 1 0 255).get ⟨0, lt_of_le_of_lt (Nat.zero_le 1) hj⟩ ≤
        (makeGammaTable 1 0 255).get ⟨1, hj⟩ := by
  have hpos : 0 < gammaTableSize 1 := gammaTableSize_pos one_pos
  have hj : 1 < (makeGammaTable 1 0 255).length := by
    rw [makeGammaTable_length]
    unfold gammaTableSize at hpos ⊢
    simp only at hpos ⊢
    omega
  exact ⟨hj, makeGammaTable_monotone 1 0 255 one_pos (by decide) (by decide) 0 1
    (Nat.zero_le 1) hj⟩

theorem getGammaIndex_of_nonpos (table : List ℕ) {x : ℝ} (hx : x ≤ 0) :
    getGammaIndex table x = 0 := by
  unfold getGammaIndex
  simp [max_eq_right hx]

theorem getGammaIndex_of_one_le (table : List ℕ) {x : ℝ} (hx : 1 ≤ x) :
    getGammaIndex table x = table.length - 1 := by
  unfold getGammaIndex
  simp only
  apply min_eq_right
  have h0 : (0 : ℝ) ≤ table.length := by positivity
  have h1 : ((table.length : ℕ) : ℝ) ≤ (table.length : ℝ) * max x 0 := by
    have : (1 : ℝ) ≤ max x 0 := le_max_of_le_left hx
    nlinarith
  have h2 : table.length ≤ ⌊(table.length : ℝ) * max x 0⌋₊ := Nat.le_floor h1
  omega

end timedata

/-! ## The claim on `resolvePythonIndex` -/

namespace timedata
namespace color

/-- C5: for a size `n` that fits in `int` and every `int` key `k`,
`resolvePythonIndex(k, n)` returns `true` exactly when `-n ≤ k < n`; the key then holds the
normalised index, `k` if `k ≥ 0` and `k + n` if `k < 0`, which lies in `[0, n)`.  The calls
`(-1, 3)`, `(3, 3)` and `(0, 3)` give `true` with index `2`, `false`, and `true` with
index `0`. -/
theorem resolvePythonIndex_spec (k : ℤ) (n : ℕ) (hn : (n : ℤ) < 2 ^ 31)
    (hk : -2 ^ 31 ≤ k ∧ k < 2 ^ 31) :
    ((resolvePythonIndex k n).1 = true ↔ (-(n : ℤ) ≤ k ∧ k < (n : ℤ))) ∧
    ((resolvePythonIndex k n).1 = true →
      (resolvePythonIndex k n).2 = (if 0 ≤ k then k else k + (n : ℤ)) ∧
      0 ≤ (resolvePythonIndex k n).2 ∧ (resolvePythonIndex k n).2 < (n : ℤ)) ∧
    resolvePythonIndex (-1) 3 = (true, 2) ∧
    (resolvePythonIndex 3 3).1 = false ∧
    resolvePythonIndex 0 3 = (true, 0) := by
  obtain ⟨hk1, hk2⟩ := hk
  norm_num at hn hk1 hk2
  have hn0 : (0 : ℤ) ≤ (n : ℤ) := Int.natCast_nonneg n
  refine ⟨?_, ?_, by decide, by decide, by decide⟩
  · unfold resolvePythonIndex toInt toSizeT
    by_cases hneg : k < 0
    · simp only [hneg, if_true, decide_eq_true_eq]
      norm_num
      omega
    · simp only [hneg, if_false, decide_eq_true_eq]
      norm_num
      omega
  · unfold resolvePythonIndex toInt toSizeT
    by_cases hneg : k < 0
    · simp only [hneg, if_true, decide_eq_true_eq]
      norm_num
      intro h1 h2
      have hk0 : ¬ (0 ≤ k) := by omega
      simp only [hk0, if_false]
      omega
    · have hk0 : 0 ≤ k := by omega
      simp only [hneg, hk0, if_false, if_true, decide_eq_true_eq]
      norm_num
      intro h1
      omega

/-- Witness of C5 at the key `-1` and the size `3`. -/
theorem resolvePythonIndex_spec_witness :
    (resolvePythonIndex (-1) 3).1 = true ↔ (-((3 : ℕ) : ℤ) ≤ (-1 : ℤ) ∧ (-1 : ℤ) < ((3 : ℕ) : ℤ)) :=
  (resolvePythonIndex_spec (-1) 3 (by norm_num) (by norm_num)).1

end color
end timedata

/-! ## Lemmas on `applySame` -/

namespace tdsp

theorem applySameFrom_ok (fade : Fade) (in1 in2 : List ℝ) :
    ∀ (n i : ℕ) (out : List ℝ), out.length - i = n →
      out.length ≤ in1.length → out.length ≤ in2.length →
      ∃ res, applySameFrom fade in1 in2 i out = some res ∧ res.length = out.length ∧
        ∀ k, res[k]? = if k < i then out[k]? else
          if k < out.length then (List.zipWith fade.apply in1 in2)[k]? else none := by
  intro n
  induction n with
  | zero =>
    intro i out hn h1 h2
    have hi : ¬ i < out.length := by omega
    refine ⟨out, ?_, rfl, ?_⟩
    · rw [applySameFrom]; simp [hi]
    · intro k
      by_cases hk : k < i
      · simp [hk]
      · have hk2 : ¬ k < out.length := by omega
        simp only [hk, hk2, if_false]
        exact List.getElem?_eq_none (by omega)
  | succ n ih =>
    intro i out hn h1 h2
    have hi : i < out.length := by omega
    have hi1 : i < in1.length := by omega
    have hi2 : i < in2.length := by omega
    have ha : in1[i]? = some in1[i] := List.getElem?_eq_getElem hi1
    have hb : in2[i]? = some in2[i] := List.getElem?_eq_getElem hi2
    obtain ⟨res, hres, hlen, hget⟩ := ih (i + 1) (out.set i (fade.apply in1[i] in2[i]))
      (by rw [List.length_set]; omega) (by rw [List.length_set]; exact h1)
      (by rw [List.length_set]; exact h2)
    rw [List.length_set] at hlen
    refine ⟨res, ?_, hlen, ?_⟩
    · rw [applySameFrom]
      simp only [hi, if_true, ha, hb]
      exact hres
    · intro k
      rw [hget k, List.length_set]
      by_cases hk : k < i
      · have hk1 : k < i + 1 := by omega
        simp only [hk, hk1, if_true]
        exact List.getElem?_set_ne (by omega)
      · by_cases hki : k = i
        · subst hki
          have hk1 : k < k + 1 := by omega
          simp only [hk1, hk, hi, if_true, if_false]
          rw [List.getElem?_set_self hi, List.getElem?_zipWith, ha, hb]
        · have hk1 : ¬ k < i + 1 := by omega
          simp only [hk, hk1, if_false]

theorem applySameFrom_fail (fade : Fade) (in1 in2 : List ℝ) :
    ∀ (n i : ℕ) (out : List ℝ), out.length - i = n →
      i ≤ in1.length → i ≤ in2.length →
      (in1.length < out.length ∨ in2.length < out.length) →
      applySameFrom fade in1 in2 i out = none := by
  intro n
  induction n with
  | zero =>
    intro i out hn h1 h2 h
    omega
  | succ n ih =>
    intro i out hn h1 h2 h
    have hi : i < out.length := by omega
    rw [applySameFrom]
    simp only [hi, if_true]
    rcases ha : in1[i]? with _ | a
    · rfl
    · rcases hb : in2[i]? with _ | b
      · rfl
      · have hi1 : i < in1.length := (List.getElem?_eq_some.mp ha).1
        have hi2 : i < in2.length := (List.getElem?_eq_some.mp hb).1
        exact ih (i + 1) (out.set i (fade.apply a b)) (by rw [List.length_set]; omega)
          hi1 hi2 (by rw [List.length_set]; exact h)

theorem applySame_eq (fade : Fade) (in1 in2 out : List ℝ) :
    applySame fade in1 in2 out =
      if out.length ≤ in1.length ∧ out.length ≤ in2.length then
        some ((List.zipWith fade.apply in1 in2).take out.length)
      else none := by
  unfold applySame
  by_cases h : out.length ≤ in1.length ∧ out.length ≤ in2.length
  · obtain ⟨res, hres, -, hget⟩ := applySameFrom_ok fade in1 in2 out.length 0 out rfl h.1 h.2
    rw [hres, if_pos h]
    congr 1
    apply List.ext_getElem?
    intro k
    rw [hget k, List.getElem?_take]
    simp
  · rw [if_neg h]
    apply applySameFrom_fail fade in1 in2 out.length 0 out rfl (Nat.zero_le _) (Nat.zero_le _)
    omega

end tdsp

/-! ## Lemmas on `applyExtend` -/

namespace tdsp

theorem applySame_of_length_eq (fade : Fade) (in1 in2 out : List ℝ)
    (h1 : in1.length = in2.length) (h2 : in2.length = out.length) :
    applySame fade in1 in2 out = some (List.zipWith fade.apply in1 in2) := by
  rw [applySame_eq, if_pos ⟨by omega, by omega⟩]
  congr 1
  apply List.take_of_length_le
  rw [List.length_zipWith]
  omega

theorem get_eq_getD (zero : List ℝ) (coll : List (List ℝ)) (i : ℕ) :
    get zero coll i = coll[i]?.getD zero := by
  unfold get
  by_cases h : i < coll.length
  · rw [dif_pos h, List.getElem?_eq_getElem h]; rfl
  · rw [dif_neg h, List.getElem?_eq_none (by omega)]; rfl

theorem get_length (channels : ℕ) (coll : List (List ℝ))
    (hc : ∀ s ∈ coll, s.length = channels) (i : ℕ) :
    (get (List.replicate channels 0) coll i).length = channels := by
  unfold get
  by_cases h : i < coll.length
  · rw [dif_pos h]; exact hc _ (List.get_mem coll i h)
  · rw [dif_neg h, List.length_replicate]

theorem resize_length {α : Type} (out : List α) (size : ℕ) (dflt : α) :
    (resize out size dflt).length = size := by
  unfold resize
  rw [List.length_append, List.length_take, List.length_replicate]
  omega

theorem resize_mem {α : Type} (out : List α) (size : ℕ) (dflt : α) (s : α)
    (hs : s ∈ resize out size dflt) : s ∈ out ∨ s = dflt := by
  unfold resize at hs
  rcases List.mem_append.mp hs with h | h
  · exact Or.inl (List.mem_of_mem_take h)
  · exact Or.inr (List.eq_of_mem_replicate h)

theorem applyExtendFrom_ok (channels : ℕ) (fade : Fade) (in1 in2 : List (List ℝ)) (size : ℕ)
    (h1 : ∀ s ∈ in1, s.length = channels) (h2 : ∀ s ∈ in2, s.length = channels) :
    ∀ (n i : ℕ) (out : List (List ℝ)), size - i = n → out.length = size →
      (∀ s ∈ out, s.length = channels) →
      ∃ res, applyExtendFrom fade (List.replicate channels 0) in1 in2 size i out = some res ∧
        res.length = size ∧
        ∀ k, res[k]? = if k < i then out[k]? else
          if k < size then
            some (List.zipWith fade.apply (get (List.replicate channels 0) in1 k)
              (get (List.replicate channels 0) in2 k))
          else none := by
  intro n
  induction n with
  | zero =>
    intro i out hn hlen _
    have hi : ¬ i < size := by omega
    refine ⟨out, ?_, hlen, ?_⟩
    · rw [applyExtendFrom]; simp [hi]
    · intro k
      by_cases hk : k < i
      · simp [hk]
      · have hk2 : ¬ k < size := by omega
        simp only [hk, hk2, if_false]
        exact List.getElem?_eq_none (by omega)
  | succ n ih =>
    intro i out hn hlen hout
    have hi : i < size := by omega
    have hio : i < out.length := by omega
    have ho : out[i]? = some out[i] := List.getElem?_eq_getElem hio
    have hol : out[i].length = channels := hout _ (List.getElem_mem hio)
    have hsame := applySame_of_length_eq fade (get (List.replicate channels 0) in1 i)
      (get (List.replicate channels 0) in2 i) out[i]
      (by rw [get_length channels in1 h1, get_length channels in2 h2])
      (by rw [get_length channels in2 h2, hol])
    have hzl : (List.zipWith fade.apply (get (List.replicate channels 0) in1 i)
        (get (List.replicate channels 0) in2 i)).length = channels := by
      rw [List.length_zipWith, get_length channels in1 h1, get_length channels in2 h2]
      exact min_self _
    obtain ⟨res, hres, hrlen, hget⟩ := ih (i + 1)
      (out.set i (List.zipWith fade.apply (get (List.replicate channels 0) in1 i)
        (get (List.replicate channels 0) in2 i)))
      (by omega) (by rw [List.length_set]; exact hlen)
      (by
        intro s hs
        rcases List.mem_or_eq_of_mem_set hs with h | h
        · exact hout s h
        · rw [h]; exact hzl)
    refine ⟨res, ?_, hrlen, ?_⟩
    · rw [applyExtendFrom]
      simp only [hi, if_true, ho, hsame]
      exact hres
    · intro k
      rw [hget k]
      by_cases hk : k < i
      · have hk1 : k < i + 1 := by omega
        simp only [hk, hk1, if_true]
        exact List.getElem?_set_ne (by omega)
      · by_cases hki : k = i
        · subst hki
          have hk1 : k < k + 1 := by omega
          simp only [hk1, hk, hi, if_true, if_false]
          rw [List.getElem?_set_self hio]
        · have hk1 : ¬ k < i + 1 := by omega
          simp only [hk, hk1, if_false]

end tdsp

/-! ## The claims on the crossfade -/

namespace tdsp

/-- C8: for buffers of samples with `channels` channels and any initial `out`,
`applyExtend` returns with `out` of length `max(bufA.size(), bufB.size())`, and for every
index `i` below that length `out[i]` is the channel-wise Fade of `bufA[i]` and `bufB[i]`,
an element missing from the shorter buffer being replaced by the all-zero sample. -/
theorem applyExtend_spec (channels : ℕ) (fade : Fade) (in1 in2 out : List (List ℝ))
    (h1 : ∀ s ∈ in1, s.length = channels) (h2 : ∀ s ∈ in2, s.length = channels)
    (h3 : ∀ s ∈ out, s.length = channels) :
    ∃ res, applyExtend channels fade in1 in2 out = some res ∧
      res.length = max in1.length in2.length ∧
      ∀ i, i < max in1.length in2.length →
        res[i]? = some (List.zipWith fade.apply
          (in1[i]?.getD (List.replicate channels 0))
          (in2[i]?.getD (List.replicate channels 0))) := by
  unfold applyExtend
  obtain ⟨res, hres, hlen, hget⟩ := applyExtendFrom_ok channels fade in1 in2
    (max in1.length in2.length) h1 h2 (max in1.length in2.length) 0
    (resize out (max in1.length in2.length) (List.replicate channels 0)) rfl
    (resize_length _ _ _)
    (by
      intro s hs
      rcases resize_mem _ _ _ s hs with h | h
      · exact h3 s h
      · rw [h, List.length_replicate])
  refine ⟨res, hres, hlen, ?_⟩
  intro i hi
  rw [hget i, get_eq_getD, get_eq_getD]
  simp [hi]

/-- Witness of C8: buffers of lengths 3 and 2 with one channel give an output of length 3
whose third element fades `3` against the zero sample. -/
theorem applyExtend_spec_witness :
    ∃ res, applyExtend 1 {} [[1], [2], [3]] [[4], [5]] [] = some res ∧
      res.length = 3 ∧ res[2]? = some [Fade.apply {} 3 0] := by
  obtain ⟨res, hres, hlen, hget⟩ := applyExtend_spec 1 {} [[1], [2], [3]] [[4], [5]] []
    (by simp) (by simp) (by simp)
  refine ⟨res, hres, by simpa using hlen, ?_⟩
  have h := hget 2 (by simp)
  simpa using h

end tdsp

namespace tdsp

/-- C6: at the linear Fade `{begin = 0, end = 1, fader = 0.5}` and the samples `x = 1`,
`y = 0` the code returns `xratio * x + yratio + y = 1`, not the midpoint
`xratio * x + yratio * y = 0.5`; `applySame` on `a = [1.0]`, `b = [0.0]` leaves
`out[0] == 1`. -/
theorem fade_apply_half_linear :
    Fade.ratios ⟨0, 1, 1 / 2, FadeType.linear⟩ = (1 / 2, 1 / 2) ∧
    Fade.apply ⟨0, 1, 1 / 2, FadeType.linear⟩ 1 0 = 1 ∧
    Fade.apply ⟨0, 1, 1 / 2, FadeType.linear⟩ 1 0 ≠ 1 / 2 * 1 + 1 / 2 * 0 ∧
    applySame ⟨0, 1, 1 / 2, FadeType.linear⟩ [1] [0] [0] = some [1] := by
  have hr : Fade.ratios ⟨0, 1, 1 / 2, FadeType.linear⟩ = (1 / 2, 1 / 2) := by
    simp only [Fade.ratios, invert]
    norm_num
  have ha : Fade.apply ⟨0, 1, 1 / 2, FadeType.linear⟩ 1 0 = 1 := by
    simp only [Fade.apply, hr]
    norm_num
  refine ⟨hr, ha, ?_, ?_⟩
  · rw [ha]; norm_num
  · rw [applySame_eq]
    simp only [List.length_cons, List.length_nil, le_refl, and_self, if_true,
      List.zipWith_cons_cons, List.zipWith_nil_left, ha]
    rfl

/-- C9: when `bufA`, `bufB` and `out` have the same size, `applySame` reads no element
outside a buffer (it returns), leaves the length of `out` unchanged and sets
`out[i] = fade(bufA[i], bufB[i])` at every index `i`; the result is the same for every
initial content of `out`. -/
theorem applySame_spec (fade : Fade) (in1 in2 out : List ℝ)
    (h1 : in1.length = in2.length) (h2 : in2.length = out.length) :
    ∃ res, applySame fade in1 in2 out = some res ∧ res.length = out.length ∧
      (∀ i, i < out.length →
        ∃ a b, in1[i]? = some a ∧ in2[i]? = some b ∧ res[i]? = some (fade.apply a b)) ∧
      (∀ out2 : List ℝ, out2.length = out.length →
        applySame fade in1 in2 out2 = some res) := by
  refine ⟨List.zipWith fade.apply in1 in2, applySame_of_length_eq fade in1 in2 out h1 h2,
    ?_, ?_, ?_⟩
  · rw [List.length_zipWith]; omega
  · intro i hi
    have hi1 : i < in1.length := by omega
    have hi2 : i < in2.length := by omega
    refine ⟨in1[i], in2[i], List.getElem?_eq_getElem hi1, List.getElem?_eq_getElem hi2, ?_⟩
    rw [List.getElem?_zipWith, List.getElem?_eq_getElem hi1, List.getElem?_eq_getElem hi2]
  · intro out2 hlen
    exact applySame_of_length_eq fade in1 in2 out2 h1 (by omega)

/-- Witness of C9 at the default Fade and the one-element buffers `[1]`, `[0]`, `[7]`. -/
theorem applySame_spec_witness :
    ∃ res, applySame {} [1] [0] [7] = some res ∧ res.length = 1 ∧
      res[0]? = some (Fade.apply {} 1 0) := by
  obtain ⟨res, hres, hlen, hget, -⟩ := applySame_spec {} [1] [0] [7] rfl rfl
  obtain ⟨a, b, ha, hb, hr⟩ := hget 0 (by simp)
  simp only [List.getElem?_cons_zero, Option.some.injEq] at ha hb
  subst ha hb
  exact ⟨res, hres, by simpa using hlen, hr⟩

/-- Counterexample to C10: the buffers `[1, 2]`, `[3, 4]` and the output `[0]` differ in
size, and `applySame` returns with the blended value `fade(1, 3)` written to `out`. -/
theorem applySame_mismatch_succeeds :
    ([1, 2] : List ℝ).length ≠ ([0] : List ℝ).length ∧
    applySame {} [1, 2] [3, 4] [0] = some [Fade.apply {} 1 3] ∧
    applySame {} [1, 2] [3, 4] [0] ≠ none := by
  have h : applySame {} [1, 2] [3, 4] [0] = some [Fade.apply {} 1 3] := by
    rw [applySame_eq]
    simp
  refine ⟨by simp, h, ?_⟩
  rw [h]
  simp

/-- C10 (amended): `applySame` makes no check of the sizes.  Its loop runs over the indices
of `out`: whenever `out` is no longer than `bufA` and no longer than `bufB`, equal sizes or
not, the call returns and `out` holds `fade(bufA[i], bufB[i])` at every index; only when
`out` is longer than one of the inputs does the loop read outside that input (the failure
of the model). -/
theorem applySame_unchecked (fade : Fade) (in1 in2 out : List ℝ) :
    applySame fade in1 in2 out =
      if out.length ≤ in1.length ∧ out.length ≤ in2.length then
        some ((List.zipWith fade.apply in1 in2).take out.length)
      else none :=
  applySame_eq fade in1 in2 out

end tdsp

/-! ## The claims on the colour arithmetic -/

namespace timedata
namespace color

theorem compare_of_ne0 {α : Type} [LinearOrderedField α] (x y : Fin 3 → α)
    (h0 : x 0 ≠ y 0) : compare x y = x 0 - y 0 := by
  unfold compare
  rw [if_pos (sub_ne_zero.mpr h0)]

theorem compare_of_ne1 {α : Type} [LinearOrderedField α] (x y : Fin 3 → α)
    (h0 : x 0 = y 0) (h1 : x 1 ≠ y 1) : compare x y = x 1 - y 1 := by
  unfold compare
  rw [if_neg (not_not.mpr (sub_eq_zero.mpr h0)), if_pos (sub_ne_zero.mpr h1)]

theorem compare_of_eq01 {α : Type} [LinearOrderedField α] (x y : Fin 3 → α)
    (h0 : x 0 = y 0) (h1 : x 1 = y 1) : compare x y = x 2 - y 2 := by
  unfold compare
  rw [if_neg (not_not.mpr (sub_eq_zero.mpr h0)), if_neg (not_not.mpr (sub_eq_zero.mpr h1))]
  by_cases h2 : x 2 - y 2 = 0
  · rw [if_neg (not_not.mpr h2), h2]
  · rw [if_pos h2]

theorem color_ext {α : Type} (x y : Fin 3 → α) (h0 : x 0 = y 0) (h1 : x 1 = y 1)
    (h2 : x 2 = y 2) : x = y := by
  funext i
  fin_cases i
  · exact h0
  · exact h1
  · exact h2

theorem compare_neg_iff {α : Type} [LinearOrderedField α] (x y : Fin 3 → α) :
    compare x y < 0 ↔ lexLt x y := by
  unfold lexLt
  by_cases h0 : x 0 = y 0
  · by_cases h1 : x 1 = y 1
    · rw [compare_of_eq01 x y h0 h1, sub_neg]
      constructor
      · intro h; exact Or.inr ⟨h0, Or.inr ⟨h1, h⟩⟩
      · rintro (h | ⟨-, h | ⟨-, h⟩⟩)
        · exact absurd h0 (ne_of_lt h)
        · exact absurd h1 (ne_of_lt h)
        · exact h
    · rw [compare_of_ne1 x y h0 h1, sub_neg]
      constructor
      · intro h; exact Or.inr ⟨h0, Or.inl h⟩
      · rintro (h | ⟨-, h | ⟨h, -⟩⟩)
        · exact absurd h0 (ne_of_lt h)
        · exact h
        · exact absurd h h1
  · rw [compare_of_ne0 x y h0, sub_neg]
    constructor
    · intro h; exact Or.inl h
    · rintro (h | ⟨h, -⟩)
      · exact h
      · exact absurd h h0

theorem compare_eq_zero_iff {α : Type} [LinearOrderedField α] (x y : Fin 3 → α) :
    compare x y = 0 ↔ x = y := by
  constructor
  · intro h
    by_cases h0 : x 0 = y 0
    · by_cases h1 : x 1 = y 1
      · rw [compare_of_eq01 x y h0 h1, sub_eq_zero] at h
        exact color_ext x y h0 h1 h
      · rw [compare_of_ne1 x y h0 h1, sub_eq_zero] at h
        exact absurd h h1
    · rw [compare_of_ne0 x y h0, sub_eq_zero] at h
      exact absurd h h0
  · intro h
    subst h
    simp [compare]

theorem lexLt_trans {α : Type} [LinearOrderedField α] (x y z : Fin 3 → α)
    (hxy : lexLt x y) (hyz : lexLt y z) : lexLt x z := by
  unfold lexLt at hxy hyz ⊢
  rcases hxy with a | ⟨a, b | ⟨b, c⟩⟩ <;> rcases hyz with d | ⟨d, e | ⟨e, f⟩⟩
  · exact Or.inl (lt_trans a d)
  · exact Or.inl (d ▸ a)
  · exact Or.inl (d ▸ a)
  · exact Or.inl (a ▸ d)
  · exact Or.inr ⟨a.trans d, Or.inl (lt_trans b e)⟩
  · exact Or.inr ⟨a.trans d, Or.inl (e ▸ b)⟩
  · exact Or.inl (a ▸ d)
  · exact Or.inr ⟨a.trans d, Or.inl (b ▸ e)⟩
  · exact Or.inr ⟨a.trans d, Or.inr ⟨b.trans e, lt_trans c f⟩⟩

theorem lexLt_total {α : Type} [LinearOrderedField α] (x y : Fin 3 → α) :
    lexLt x y ∨ x = y ∨ lexLt y x := by
  unfold lexLt
  rcases lt_trichotomy (x 0) (y 0) with a | a | a
  · exact Or.inl (Or.inl a)
  · rcases lt_trichotomy (x 1) (y 1) with b | b | b
    · exact Or.inl (Or.inr ⟨a, Or.inl b⟩)
    · rcases lt_trichotomy (x 2) (y 2) with c | c | c
      · exact Or.inl (Or.inr ⟨a, Or.inr ⟨b, c⟩⟩)
      · exact Or.inr (Or.inl (color_ext x y a b c))
      · exact Or.inr (Or.inr (Or.inr ⟨a.symm, Or.inr ⟨b.symm, c⟩⟩))
    · exact Or.inr (Or.inr (Or.inr ⟨a.symm, Or.inl b⟩))
  · exact Or.inr (Or.inr (Or.inl a))

theorem compare_nonpos_iff {α : Type} [LinearOrderedField α] (x y : Fin 3 → α) :
    compare x y ≤ 0 ↔ lexLt x y ∨ x = y := by
  rw [le_iff_lt_or_eq, compare_neg_iff, compare_eq_zero_iff]

/-- C11: for all colours `x` and `y` with three channels, `compare(x, x) == 0` and
`compare(x, y) == -compare(y, x)`, `compare` being the first non-zero difference
`x[i] - y[i]` in the channel order 0, 1, 2 (and `0` when there is none). -/
theorem compare_antisymm {α : Type} [LinearOrderedField α] (x y : Fin 3 → α) :
    compare x x = 0 ∧ compare x y = -compare y x ∧
    compare x y =
      (if x 0 ≠ y 0 then x 0 - y 0 else if x 1 ≠ y 1 then x 1 - y 1 else x 2 - y 2) := by
  refine ⟨by simp [compare], ?_, ?_⟩
  · by_cases h0 : x 0 = y 0
    · by_cases h1 : x 1 = y 1
      · rw [compare_of_eq01 x y h0 h1, compare_of_eq01 y x h0.symm h1.symm, neg_sub]
      · rw [compare_of_ne1 x y h0 h1, compare_of_ne1 y x h0.symm (Ne.symm h1), neg_sub]
    · rw [compare_of_ne0 x y h0, compare_of_ne0 y x (Ne.symm h0), neg_sub]
  · by_cases h0 : x 0 = y 0
    · by_cases h1 : x 1 = y 1
      · rw [compare_of_eq01 x y h0 h1, if_neg (not_not.mpr h0), if_neg (not_not.mpr h1)]
      · rw [compare_of_ne1 x y h0 h1, if_neg (not_not.mpr h0), if_pos h1]
    · rw [compare_of_ne0 x y h0, if_pos h0]

/-- C12: `compare` induces a total order on colours with three channels that coincides
with the lexicographic order on (channel 0, channel 1, channel 2): `compare(x, y) == 0`
exactly when `x` and `y` agree on every channel, `compare(x, y) < 0` exactly when `x` is
lexicographically smaller than `y`, and the relation `compare(x, y) <= 0` is transitive
and total. -/
theorem compare_total_order {α : Type} [LinearOrderedField α] (x y z : Fin 3 → α) :
    (compare x y = 0 ↔ ∀ i, x i = y i) ∧
    (compare x y < 0 ↔ lexLt x y) ∧
    (compare x y ≤ 0 → compare y z ≤ 0 → compare x z ≤ 0) ∧
    (compare x y ≤ 0 ∨ compare y x ≤ 0) := by
  refine ⟨?_, compare_neg_iff x y, ?_, ?_⟩
  · rw [compare_eq_zero_iff]
    exact ⟨fun h i => h ▸ rfl, fun h => funext h⟩
  · rw [compare_nonpos_iff, compare_nonpos_iff, compare_nonpos_iff]
    rintro (h1 | h1) (h2 | h2)
    · exact Or.inl (lexLt_trans x y z h1 h2)
    · exact Or.inl (h2 ▸ h1)
    · exact Or.inl (h1 ▸ h2)
    · exact Or.inr (h1.trans h2)
  · rw [compare_nonpos_iff, compare_nonpos_iff]
    rcases lexLt_total x y with h | h | h
    · exact Or.inl (Or.inl h)
    · exact Or.inl (Or.inr h)
    · exact Or.inr (Or.inl h)

theorem limit_min_apply {α : Type} [LinearOrderedField α] (x y : Fin 3 → α) (i : Fin 3) :
    limit_min x y i = max (x i) (y i) := by
  fin_cases i <;> rfl

theorem limit_max_apply {α : Type} [LinearOrderedField α] (x y : Fin 3 → α) (i : Fin 3) :
    limit_max x y i = min (x i) (y i) := by
  fin_cases i <;> rfl

/-- C15: `limit_min` and `limit_max` clamp per channel, `limit_min(x, lo)[i]` being
`max(x[i], lo[i])` and `limit_max(x, hi)[i]` being `min(x[i], hi[i])`; when
`lo[i] <= hi[i]` on every channel, `limit_max(limit_min(x, lo), hi)` has every channel in
`[lo[i], hi[i]]`, equals `limit_min(limit_max(x, hi), lo)`, and equals `x` when `x` lies
within the bounds. -/
theorem limit_clamp {α : Type} [LinearOrderedField α] (x lo hi : Fin 3 → α)
    (h : ∀ i, lo i ≤ hi i) :
    (∀ i, limit_min x lo i = max (x i) (lo i)) ∧
    (∀ i, limit_max x hi i = min (x i) (hi i)) ∧
    (∀ i, lo i ≤ limit_max (limit_min x lo) hi i ∧ limit_max (limit_min x lo) hi i ≤ hi i) ∧
    limit_max (limit_min x lo) hi = limit_min (limit_max x hi) lo ∧
    ((∀ i, lo i ≤ x i ∧ x i ≤ hi i) → limit_max (limit_min x lo) hi = x) := by
  refine ⟨limit_min_apply x lo, limit_max_apply x hi, ?_, ?_, ?_⟩
  · intro i
    rw [limit_max_apply, limit_min_apply]
    exact ⟨le_min (le_max_right _ _) (h i), min_le_right _ _⟩
  · funext i
    rw [limit_max_apply, limit_min_apply, limit_min_apply, limit_max_apply]
    rcases le_total (x i) (lo i) with a | a <;> rcases le_total (x i) (hi i) with b | b
    · rw [max_eq_right a, min_eq_left (h i), min_eq_left b, max_eq_right a]
    · rw [max_eq_right a, min_eq_left (h i), min_eq_right b, max_eq_left (h i)]
      exact le_antisymm (h i) (le_trans b a)
    · rw [max_eq_left a, min_eq_left b, max_eq_left a]
    · rw [max_eq_left a, min_eq_right b, max_eq_left (h i)]
  · intro hx
    funext i
    rw [limit_max_apply, limit_min_apply, max_eq_left (hx i).1, min_eq_left (hx i).2]

/-- Witness of C15 on rational colours. -/
theorem limit_clamp_witness :
    limit_max (limit_min (![5, 0, 2] : Fin 3 → ℚ) ![1, 1, 1]) ![3, 3, 3] =
      limit_min (limit_max ![5, 0, 2] ![3, 3, 3]) ![1, 1, 1] :=
  (limit_clamp ![5, 0, 2] ![1, 1, 1] ![3, 3, 3]
    (by intro i; fin_cases i <;> norm_num)).2.2.2.1

/-- C16: for all samples `x`, `y` and every channel `i` of the colour type,
`magic_add(x, y)[i] == x[i] + y[i]`. -/
theorem magic_add_apply {α : Type} [LinearOrderedField α] (x y : Fin 3 → α) (i : Fin 3) :
    magic_add x y i = x i + y i := by
  fin_cases i <;> rfl

end color

end timedata

/-! ## Further lemmas and claims on the gamma table -/

namespace timedata

theorem floor_four_mul_bounds {q : ℝ} (hq : 0 ≤ q) :
    4 * ⌊q⌋₊ ≤ ⌊4 * q⌋₊ ∧ ⌊4 * q⌋₊ ≤ 4 * ⌊q⌋₊ + 3 := by
  have h1 : (⌊q⌋₊ : ℝ) ≤ q := Nat.floor_le hq
  have h2 : q < (⌊q⌋₊ : ℝ) + 1 := Nat.lt_floor_add_one q
  constructor
  · apply Nat.le_floor
    push_cast
    linarith
  · have h3 : ⌊4 * q⌋₊ < 4 * ⌊q⌋₊ + 4 := by
      rw [Nat.floor_lt (by linarith)]
      push_cast
      linarith
    omega

theorem gammaDiff_half : 1 - (255 / 256 : ℝ) ^ (1 / (1 / 2 : ℝ)) = 511 / 65536 := by
  rw [one_div_one_div, Real.rpow_two]
  norm_num

theorem gammaTableSize_half : gammaTableSize (1 / 2) = 512 := by
  unfold gammaTableSize
  simp only
  rw [gammaDiff_half]
  have h : ⌊1 / (511 / 65536 : ℝ)⌋₊ = 128 := by
    rw [Nat.floor_eq_iff (by norm_num)]
    norm_num
  rw [h]

theorem gammaTableSize_one : gammaTableSize 1 = 1024 := by
  unfold gammaTableSize
  simp only
  have h : ⌊1 / (1 - (255 / 256 : ℝ) ^ (1 / (1 : ℝ)))⌋₊ = 256 := by
    rw [div_one, Real.rpow_one, Nat.floor_eq_iff (by norm_num)]
    norm_num
  rw [h]

end timedata

/-! ## Coverage of the output values by the gamma table -/

namespace timedata

theorem gammaEntry_default (gamma : ℝ) (size i : ℕ) :
    gammaEntry gamma 0 255 size i =
      ⌊min (255 : ℝ) (((i : ℝ) / (size : ℝ)) ^ gamma * 256)⌋₊ := by
  rw [gammaEntry_of_le (le_refl 255)]
  congr 2
  push_cast
  ring

theorem gammaEntry_one (i : ℕ) (hi : i < 1024) : gammaEntry 1 0 255 1024 i = i / 4 := by
  rw [gammaEntry_default, Real.rpow_one]
  have hdm : 4 * (i / 4) + i % 4 = i := Nat.div_add_mod i 4
  have hr : i % 4 < 4 := Nat.mod_lt i (by decide)
  have hk : i / 4 ≤ 255 := by omega
  have hic : (i : ℝ) = 4 * ((i / 4 : ℕ) : ℝ) + ((i % 4 : ℕ) : ℝ) := by
    exact_mod_cast hdm.symm
  have hr0 : (0 : ℝ) ≤ ((i % 4 : ℕ) : ℝ) := Nat.cast_nonneg _
  have hr3 : ((i % 4 : ℕ) : ℝ) ≤ 3 := by
    have : i % 4 ≤ 3 := by omega
    exact_mod_cast this
  have hk255 : ((i / 4 : ℕ) : ℝ) ≤ 255 := by exact_mod_cast hk
  have hval : (i : ℝ) / ((1024 : ℕ) : ℝ) * 256 =
      ((i / 4 : ℕ) : ℝ) + ((i % 4 : ℕ) : ℝ) / 4 := by
    rw [hic]; push_cast; ring
  rw [hval, Nat.floor_eq_iff (le_min (by norm_num) (by positivity))]
  constructor
  · exact le_min hk255 (by linarith)
  · calc min (255 : ℝ) (((i / 4 : ℕ) : ℝ) + ((i % 4 : ℕ) : ℝ) / 4)
        ≤ ((i / 4 : ℕ) : ℝ) + ((i % 4 : ℕ) : ℝ) / 4 := min_le_right _ _
      _ < ((i / 4 : ℕ) : ℝ) + 1 := by linarith

theorem gammaEntry_half_zero : gammaEntry (1 / 2) 0 255 512 0 = 0 := by
  rw [gammaEntry_default]
  have h : (((0 : ℕ) : ℝ) / ((512 : ℕ) : ℝ)) ^ (1 / 2 : ℝ) = 0 := by
    rw [Nat.cast_zero, zero_div, Real.zero_rpow (by norm_num)]
  rw [h, zero_mul, min_eq_right (by norm_num), Nat.floor_zero]

theorem gammaEntry_half_ge (i : ℕ) (hi : 1 ≤ i) : 2 ≤ gammaEntry (1 / 2) 0 255 512 i := by
  rw [gammaEntry_default]
  apply Nat.le_floor
  have hi1 : (1 : ℝ) ≤ (i : ℝ) := by exact_mod_cast hi
  have hs : (1 / 128 : ℝ) ≤ ((i : ℝ) / ((512 : ℕ) : ℝ)) ^ (1 / 2 : ℝ) := by
    rw [← Real.sqrt_eq_rpow, Real.le_sqrt (by norm_num) (by positivity)]
    push_cast
    rw [le_div_iff₀ (by norm_num)]
    norm_num
    linarith
  apply le_min
  · norm_num
  · push_cast
    linarith

theorem sqrt_ratio_bounds :
    (510 / 511 : ℝ) ≤ (255 / 256 : ℝ) ^ (1 / (2 : ℝ)) ∧
      (255 / 256 : ℝ) ^ (1 / (2 : ℝ)) < 511 / 512 := by
  rw [← Real.sqrt_eq_rpow]
  constructor
  · rw [Real.le_sqrt (by norm_num) (by norm_num)]
    norm_num
  · rw [Real.sqrt_lt' (by norm_num)]
    norm_num

theorem gammaTableSize_two : gammaTableSize 2 = 2044 := by
  unfold gammaTableSize
  simp only
  obtain ⟨h1, h2⟩ := sqrt_ratio_bounds
  have hd : 0 < 1 - (255 / 256 : ℝ) ^ (1 / (2 : ℝ)) := by linarith
  have h : ⌊1 / (1 - (255 / 256 : ℝ) ^ (1 / (2 : ℝ)))⌋₊ = 511 := by
    rw [Nat.floor_eq_iff (by positivity)]
    constructor
    · rw [le_div_iff₀ hd]
      push_cast
      linarith
    · rw [div_lt_iff₀ hd]
      push_cast
      linarith
  rw [h]

theorem gammaEntry_two_lt (i : ℕ) (hi : i ≤ 2040) : gammaEntry 2 0 255 2044 i < 255 := by
  rw [gammaEntry_default, Real.rpow_two]
  have hi0 : (0 : ℝ) ≤ (i : ℝ) := Nat.cast_nonneg i
  have hi1 : (i : ℝ) ≤ 2040 := by exact_mod_cast hi
  have hsq : (i : ℝ) ^ 2 ≤ 2040 ^ 2 := pow_le_pow_left₀ hi0 hi1 2
  have hlt : ((i : ℝ) / ((2044 : ℕ) : ℝ)) ^ 2 * 256 < 255 := by
    rw [div_pow]
    push_cast
    rw [div_mul_eq_mul_div, div_lt_iff₀ (by norm_num)]
    norm_num at hsq ⊢
    linarith
  rw [Nat.floor_lt (le_min (by norm_num) (by positivity))]
  push_cast
  exact lt_of_le_of_lt (min_le_right _ _) (by exact_mod_cast hlt)

/-- C14: the table size of `makeGammaTable` does not make every output value appear four
times.  At `gamma = 2` (range `0..255`) the table has `2044` entries and the value `255`
is found only at indices from `2041` on, that is at three indices at most; at `gamma = 0.5`
the table has `512` entries and the value `1` is found nowhere.  At `gamma = 1` the table
has `1024` entries and entry `i` is `i / 4`, every value being found exactly four times. -/
theorem makeGammaTable_coverage :
    ((makeGammaTable 2 0 255).length = 2044 ∧
      ∀ i (hi : i < (makeGammaTable 2 0 255).length),
        (makeGammaTable 2 0 255).get ⟨i, hi⟩ = 255 → 2041 ≤ i) ∧
    ((makeGammaTable (1 / 2) 0 255).length = 512 ∧
      (makeGammaTable (1 / 2) 0 255).count 1 = 0) ∧
    ((makeGammaTable 1 0 255).length = 1024 ∧
      ∀ i (hi : i < (makeGammaTable 1 0 255).length),
        (makeGammaTable 1 0 255).get ⟨i, hi⟩ = i / 4) := by
  refine ⟨⟨?_, ?_⟩, ⟨?_, ?_⟩, ⟨?_, ?_⟩⟩
  · rw [makeGammaTable_length, gammaTableSize_two]
  · intro i hi h
    rw [makeGammaTable_get, gammaTableSize_two] at h
    by_contra hlt
    have := gammaEntry_two_lt i (by omega)
    omega
  · rw [makeGammaTable_length, gammaTableSize_half]
  · rw [List.count_eq_zero]
    intro hmem
    unfold makeGammaTable at hmem
    rw [gammaTableSize_half] at hmem
    obtain ⟨i, -, hi⟩ := List.mem_map.mp hmem
    rcases Nat.eq_zero_or_pos i with h0 | h0
    · rw [h0, gammaEntry_half_zero] at hi
      omega
    · have := gammaEntry_half_ge i h0
      omega
  · rw [makeGammaTable_length, gammaTableSize_one]
  · intro i hi
    have hi2 : i < 1024 := by
      rw [makeGammaTable_length, gammaTableSize_one] at hi; exact hi
    rw [makeGammaTable_get, gammaTableSize_one]
    exact gammaEntry_one i hi2

end timedata

/-! ## The range of the gamma table -/

namespace timedata

theorem gammaEntry_first {gamma : ℝ} (hg : 0 < gamma) {begin_ end_ : ℕ} (size : ℕ)
    (he : end_ ≤ 255) (hbe : begin_ ≤ end_) :
    gammaEntry gamma begin_ end_ size 0 = begin_ := by
  rw [gammaEntry_of_le he]
  have h : (((0 : ℕ) : ℝ) / (size : ℝ)) ^ gamma = 0 := by
    rw [Nat.cast_zero, zero_div, Real.zero_rpow hg.ne.symm]
  have hb : (begin_ : ℝ) ≤ (end_ : ℝ) := by exact_mod_cast hbe
  rw [h, zero_mul, add_zero, min_eq_right hb, Nat.floor_natCast]

theorem gammaEntry_bounds {gamma : ℝ} {begin_ end_ : ℕ} (size i : ℕ)
    (he : end_ ≤ 255) (hbe : begin_ ≤ end_) :
    begin_ ≤ gammaEntry gamma begin_ end_ size i ∧
      gammaEntry gamma begin_ end_ size i ≤ end_ := by
  rw [gammaEntry_of_le he]
  have hb : (begin_ : ℝ) ≤ (end_ : ℝ) := by exact_mod_cast hbe
  have hr := gammaRatio_nonneg gamma size i
  constructor
  · apply Nat.le_floor
    apply le_min hb
    have hw : (0 : ℝ) ≤ 1 + ((end_ : ℝ) - (begin_ : ℝ)) := by linarith
    have := mul_nonneg hr hw
    linarith
  · have h := Nat.floor_le_floor (min_le_left (end_ : ℝ)
      ((begin_ : ℝ) + ((i : ℝ) / (size : ℝ)) ^ gamma * (1 + ((end_ : ℝ) - (begin_ : ℝ)))))
    rw [Nat.floor_natCast] at h
    exact h

theorem gammaRatio_last {gamma : ℝ} (hg : 0 < gamma) :
    (255 / 256 : ℝ) ≤
      (((gammaTableSize gamma - 1 : ℕ) : ℝ) / (gammaTableSize gamma : ℝ)) ^ gamma := by
  have hd := gammaDiff_pos hg
  have hp : (0 : ℝ) ≤ (255 / 256 : ℝ) ^ (1 / gamma) := Real.rpow_nonneg (by norm_num) _
  have hpos := gammaTableSize_pos hg
  have hs : (0 : ℝ) < (gammaTableSize gamma : ℝ) := by exact_mod_cast hpos
  have hq : (0 : ℝ) ≤ 1 / (1 - (255 / 256 : ℝ) ^ (1 / gamma)) := by positivity
  have hfl : 1 / (1 - (255 / 256 : ℝ) ^ (1 / gamma)) <
      (⌊1 / (1 - (255 / 256 : ℝ) ^ (1 / gamma))⌋₊ : ℝ) + 1 := Nat.lt_floor_add_one _
  have hsize : (gammaTableSize gamma : ℝ) =
      4 * (⌊1 / (1 - (255 / 256 : ℝ) ^ (1 / gamma))⌋₊ : ℝ) := by
    unfold gammaTableSize
    push_cast
    rfl
  have hfl1 : (1 : ℝ) ≤ (⌊1 / (1 - (255 / 256 : ℝ) ^ (1 / gamma))⌋₊ : ℝ) := by
    have h4 : 0 < 4 * ⌊1 / (1 - (255 / 256 : ℝ) ^ (1 / gamma))⌋₊ := hpos
    have : 1 ≤ ⌊1 / (1 - (255 / 256 : ℝ) ^ (1 / gamma))⌋₊ := by omega
    exact_mod_cast this
  have hge : 1 / (1 - (255 / 256 : ℝ) ^ (1 / gamma)) ≤ (gammaTableSize gamma : ℝ) := by
    rw [hsize]; linarith
  have hone : 1 ≤ (1 - (255 / 256 : ℝ) ^ (1 / gamma)) * (gammaTableSize gamma : ℝ) := by
    rw [div_le_iff₀ hd] at hge
    linarith
  have hbase : (255 / 256 : ℝ) ^ (1 / gamma) ≤
      ((gammaTableSize gamma - 1 : ℕ) : ℝ) / (gammaTableSize gamma : ℝ) := by
    rw [le_div_iff₀ hs, Nat.cast_sub hpos]
    push_cast
    linarith
  have hpow := Real.rpow_le_rpow hp hbase hg.le
  have hcancel : ((255 / 256 : ℝ) ^ (1 / gamma)) ^ gamma = 255 / 256 := by
    rw [← Real.rpow_mul (by norm_num), one_div_mul_cancel hg.ne.symm, Real.rpow_one]
  rw [hcancel] at hpow
  exact hpow

theorem gammaEntry_last {gamma : ℝ} (hg : 0 < gamma) {begin_ end_ : ℕ}
    (he : end_ ≤ 255) (hbe : begin_ ≤ end_) :
    gammaEntry gamma begin_ end_ (gammaTableSize gamma) (gammaTableSize gamma - 1) = end_ := by
  rw [gammaEntry_of_le he]
  have hb : (begin_ : ℝ) ≤ (end_ : ℝ) := by exact_mod_cast hbe
  have he255 : (end_ : ℝ) ≤ 255 := by exact_mod_cast he
  have hb0 : (0 : ℝ) ≤ (begin_ : ℝ) := Nat.cast_nonneg _
  have hr := gammaRatio_last hg
  have hw : (0 : ℝ) ≤ 1 + ((end_ : ℝ) - (begin_ : ℝ)) := by linarith
  have hmul := mul_le_mul_of_nonneg_right hr hw
  have hle : (end_ : ℝ) ≤ (begin_ : ℝ) +
      (((gammaTableSize gamma - 1 : ℕ) : ℝ) / (gammaTableSize gamma : ℝ)) ^ gamma *
        (1 + ((end_ : ℝ) - (begin_ : ℝ))) := by
    linarith
  rw [min_eq_left hle, Nat.floor_natCast]

/-- C18: for `gamma > 0` and 8-bit `begin <= end` the table of `makeGammaTable` spans the
requested range: it is not empty, its first entry is `begin`, its last entry is `end`,
every entry lies in `[begin, end]`, and so `getGamma(table, 0) == begin` and
`getGamma(table, 1) == end` (arithmetic read over the reals). -/
theorem makeGammaTable_spans (gamma : ℝ) (begin_ end_ : ℕ) (hg : 0 < gamma)
    (hbe : begin_ ≤ end_) (he : end_ ≤ 255) :
    ∃ hne : makeGammaTable gamma begin_ end_ ≠ [],
      (makeGammaTable gamma begin_ end_).head hne = begin_ ∧
      (makeGammaTable gamma begin_ end_).getLast hne = end_ ∧
      (∀ v ∈ makeGammaTable gamma begin_ end_, begin_ ≤ v ∧ v ≤ end_) ∧
      getGamma (makeGammaTable gamma begin_ end_) 0 = some begin_ ∧
      getGamma (makeGammaTable gamma begin_ end_) 1 = some end_ := by
  have hpos := gammaTableSize_pos hg
  have hlen := makeGammaTable_length gamma begin_ end_
  have hl0 : 0 < (makeGammaTable gamma begin_ end_).length := by rw [hlen]; exact hpos
  have hl1 : (makeGammaTable gamma begin_ end_).length - 1 <
      (makeGammaTable gamma begin_ end_).length := by omega
  have hne : makeGammaTable gamma begin_ end_ ≠ [] := List.length_pos.mp hl0
  have hfirst : (makeGammaTable gamma begin_ end_).get ⟨0, hl0⟩ = begin_ := by
    rw [makeGammaTable_get]; exact gammaEntry_first hg _ he hbe
  have hlast : (makeGammaTable gamma begin_ end_).get
      ⟨(makeGammaTable gamma begin_ end_).length - 1, hl1⟩ = end_ := by
    rw [makeGammaTable_get, hlen]; exact gammaEntry_last hg he hbe
  refine ⟨hne, ?_, ?_, ?_, ?_, ?_⟩
  · rw [List.head_eq_getElem]; exact hfirst
  · rw [List.getLast_eq_getElem]; exact hlast
  · intro v hv
    unfold makeGammaTable at hv
    obtain ⟨i, -, hi⟩ := List.mem_map.mp hv
    rw [← hi]
    exact gammaEntry_bounds _ i he hbe
  · unfold getGamma
    rw [getGammaIndex_of_nonpos _ le_rfl, List.getElem?_eq_getElem hl0]
    exact congrArg some hfirst
  · unfold getGamma
    rw [getGammaIndex_of_one_le _ le_rfl, List.getElem?_eq_getElem hl1]
    exact congrArg some hlast

/-- Witness of C18 at `gamma = 1` and the default range `0..255`. -/
theorem makeGammaTable_spans_witness :
    getGamma (makeGammaTable 1 0 255) 0 = some 0 ∧
      getGamma (makeGammaTable 1 0 255) 1 = some 255 := by
  obtain ⟨-, -, -, -, h0, h1⟩ := makeGammaTable_spans 1 0 255 one_pos (by decide) (by decide)
  exact ⟨h0, h1⟩

end timedata

/-! ## The curve of the Fade and `applyExtend` on buffers of equal length -/

namespace tdsp

theorem signum_eq_sign (r : ℝ) : signum r = Real.sign r := rfl

theorem sqr_signum (r : ℝ) : r * r * signum r = r * |r| := by
  unfold signum
  rcases lt_trichotomy r 0 with h | h | h
  · rw [if_pos h, abs_of_neg h]; ring
  · subst h; simp
  · rw [if_neg (not_lt.mpr h.le), if_pos h, abs_of_pos h]; ring

/-- C17: the Fade transforms each ratio as the specification states: for `linear` (and any
type other than `sqr` and `sqrt`) the ratio is unchanged, for `sqr` it becomes `r * |r|`
(`r * r * signum(r)` in the code), which keeps the sign of `r` and squares its magnitude,
and for `sqrt` it becomes `sqrt(|r|) * sign(r)`; the same transform is applied to `xratio`
and to `yratio`. -/
theorem ratios_eq_specCurve (f : Fade) (r : ℝ) :
    f.ratios = (specCurve f.type (f.begin_ + f.fader * (f.end_ - f.begin_)),
      specCurve f.type (f.begin_ + (1 - f.fader) * (f.end_ - f.begin_))) ∧
    specCurve FadeType.linear r = r ∧ specCurve FadeType.size r = r ∧
    specCurve FadeType.sqr r = r * r * signum r ∧
    Real.sign (specCurve FadeType.sqr r) = Real.sign r ∧
    |specCurve FadeType.sqr r| = |r| ^ 2 ∧
    specCurve FadeType.sqrt r = Real.sqrt |r| * signum r := by
  refine ⟨?_, rfl, rfl, (sqr_signum r).symm, ?_, ?_, rfl⟩
  · unfold Fade.ratios specCurve invert
    cases f.type
    · rfl
    · simp only [sqr_signum]
    · simp only [signum_eq_sign]
    · rfl
  · simp only [specCurve]
    rcases lt_trichotomy r 0 with h | h | h
    · have h2 : r * |r| < 0 := mul_neg_of_neg_of_pos h (abs_pos.mpr h.ne)
      rw [Real.sign_of_neg h, Real.sign_of_neg h2]
    · subst h; simp
    · have h2 : 0 < r * |r| := mul_pos h (abs_pos.mpr h.ne.symm)
      rw [Real.sign_of_pos h, Real.sign_of_pos h2]
  · simp only [specCurve]
    rw [abs_mul, abs_abs]
    ring

theorem applyExtend_ok (channels : ℕ) (fade : Fade) (in1 in2 out : List (List ℝ))
    (h1 : ∀ s ∈ in1, s.length = channels) (h2 : ∀ s ∈ in2, s.length = channels)
    (h3 : ∀ s ∈ out, s.length = channels) :
    ∃ res, applyExtend channels fade in1 in2 out = some res ∧
      res.length = max in1.length in2.length ∧
      ∀ i, i < max in1.length in2.length →
        res[i]? = some (List.zipWith fade.apply
          (get (List.replicate channels 0) in1 i) (get (List.replicate channels 0) in2 i)) := by
  unfold applyExtend
  obtain ⟨res, hres, hlen, hget⟩ := applyExtendFrom_ok channels fade in1 in2
    (max in1.length in2.length) h1 h2 (max in1.length in2.length) 0
    (resize out (max in1.length in2.length) (List.replicate channels 0)) rfl
    (resize_length _ _ _)
    (by
      intro s hs
      rcases resize_mem _ _ _ s hs with h | h
      · exact h3 s h
      · rw [h, List.length_replicate])
  refine ⟨res, hres, hlen, ?_⟩
  intro i hi
  rw [hget i]
  simp [hi]

/-- C20: on buffers `bufA` and `bufB` of the same length `n`, whose elements are samples of
`channels` channels, and for any `out`, `applyExtend` leaves `out` with length `n`, and
every element `out[i]` is what `applySame` gives on the samples `bufA[i]` and `bufB[i]`,
the channel-wise Fade of the two; the zero sample is not used. -/
theorem applyExtend_refines_applySame (channels : ℕ) (fade : Fade)
    (in1 in2 out : List (List ℝ)) (hlen : in1.length = in2.length)
    (h1 : ∀ s ∈ in1, s.length = channels) (h2 : ∀ s ∈ in2, s.length = channels)
    (h3 : ∀ s ∈ out, s.length = channels) :
    ∃ res, applyExtend channels fade in1 in2 out = some res ∧
      res.length = in1.length ∧
      ∀ i, i < in1.length →
        ∃ a b, in1[i]? = some a ∧ in2[i]? = some b ∧
          res[i]? = some (List.zipWith fade.apply a b) ∧
          ∀ o : List ℝ, o.length = channels → applySame fade a b o = res[i]? := by
  obtain ⟨res, hres, hrlen, hget⟩ := applyExtend_ok channels fade in1 in2 out h1 h2 h3
  refine ⟨res, hres, by rw [hrlen]; omega, ?_⟩
  intro i hi
  have hi2 : i < in2.length := by omega
  have ha : in1[i]? = some in1[i] := List.getElem?_eq_getElem hi
  have hb : in2[i]? = some in2[i] := List.getElem?_eq_getElem hi2
  have hga : get (List.replicate channels 0) in1 i = in1[i] := by
    rw [get_eq_getD, ha]; rfl
  have hgb : get (List.replicate channels 0) in2 i = in2[i] := by
    rw [get_eq_getD, hb]; rfl
  have hr : res[i]? = some (List.zipWith fade.apply in1[i] in2[i]) := by
    rw [hget i (by omega), hga, hgb]
  refine ⟨in1[i], in2[i], ha, hb, hr, ?_⟩
  intro o ho
  rw [hr]
  apply applySame_of_length_eq
  · rw [h1 _ (List.getElem_mem hi), h2 _ (List.getElem_mem hi2)]
  · rw [h2 _ (List.getElem_mem hi2), ho]

/-- Witness of C20 on two buffers of two one-channel samples. -/
theorem applyExtend_refines_applySame_witness :
    ∃ res, applyExtend 1 {} [[1], [2]] [[4], [5]] [] = some res ∧ res.length = 2 := by
  obtain ⟨res, hres, hlen, -⟩ := applyExtend_refines_applySame 1 {} [[1], [2]] [[4], [5]] []
    rfl (by simp) (by simp) (by simp)
  exact ⟨res, hres, by simpa using hlen⟩

end tdsp

/-! ## Lemmas on binary32 rounding -/

namespace binary32

theorem roundEven_intCast (n : ℤ) : roundEven (n : ℝ) = n := by
  unfold roundEven
  simp

theorem floor_le_roundEven (m : ℝ) : ⌊m⌋ ≤ roundEven m := by
  unfold roundEven
  split_ifs <;> omega

theorem roundEven_le_floor_add_one (m : ℝ) : roundEven m ≤ ⌊m⌋ + 1 := by
  unfold roundEven
  split_ifs <;> omega

theorem le_roundEven {n : ℤ} {m : ℝ} (h : (n : ℝ) ≤ m) : n ≤ roundEven m :=
  le_trans (Int.le_floor.mpr h) (floor_le_roundEven m)

theorem roundEven_le {n : ℤ} {m : ℝ} (h : m ≤ (n : ℝ)) : roundEven m ≤ n := by
  rcases eq_or_lt_of_le h with h1 | h1
  · rw [h1, roundEven_intCast]
  · have : ⌊m⌋ < n := Int.floor_lt.mpr h1
    have := roundEven_le_floor_add_one m
    omega

theorem roundEven_neg (m : ℝ) : roundEven (-m) = -roundEven m := by
  by_cases hint : (⌊m⌋ : ℝ) = m
  · rw [← hint, ← Int.cast_neg, roundEven_intCast, roundEven_intCast]
  · have hfl : (⌊m⌋ : ℝ) < m := lt_of_le_of_ne (Int.floor_le m) hint
    have hlt : m < (⌊m⌋ : ℝ) + 1 := Int.lt_floor_add_one m
    have hneg : ⌊-m⌋ = -⌊m⌋ - 1 := by
      rw [Int.floor_eq_iff]
      push_cast
      constructor <;> linarith
    unfold roundEven
    rw [hneg]
    push_cast
    by_cases h1 : m - ⌊m⌋ < 1 / 2
    · have h2 : ¬ (-m - (-(⌊m⌋ : ℝ) - 1) < 1 / 2) := by linarith
      have h3 : 1 / 2 < -m - (-(⌊m⌋ : ℝ) - 1) := by linarith
      rw [if_pos h1, if_neg h2, if_pos h3]
      ring
    · by_cases h4 : 1 / 2 < m - ⌊m⌋
      · have h2 : -m - (-(⌊m⌋ : ℝ) - 1) < 1 / 2 := by linarith
        rw [if_neg h1, if_pos h4, if_pos h2]
        ring
      · have h2 : ¬ (-m - (-(⌊m⌋ : ℝ) - 1) < 1 / 2) := by linarith
        have h3 : ¬ (1 / 2 < -m - (-(⌊m⌋ : ℝ) - 1)) := by linarith
        rw [if_neg h1, if_neg h4, if_neg h2, if_neg h3]
        by_cases he : Even ⌊m⌋
        · have ho : ¬ Even (-⌊m⌋ - 1) := by
            intro h
            rw [Int.even_sub, even_neg] at h
            exact absurd (h.mp he) (by decide)
          rw [if_pos he, if_neg ho]
          ring
        · have ho : Even (-⌊m⌋ - 1) := by
            rw [Int.even_sub, even_neg]
            exact ⟨fun h => absurd h he, fun h => absurd h (by decide)⟩
          rw [if_neg he, if_pos ho]
          ring

end binary32

namespace binary32

theorem two_zpow_pos (k : ℤ) : (0 : ℝ) < 2 ^ k := zpow_pos (by norm_num) k

theorem log_lt_iff {r : ℝ} (hr : 0 < r) (k : ℤ) : Int.log 2 r < k ↔ r < 2 ^ k := by
  have h := @Int.lt_zpow_iff_log_lt ℝ _ _ 2 (by norm_num) k r hr
  rw [Nat.cast_ofNat] at h
  exact h.symm

theorem le_log_iff {r : ℝ} (hr : 0 < r) (k : ℤ) : k ≤ Int.log 2 r ↔ 2 ^ k ≤ r := by
  have h := @Int.zpow_le_iff_le_log ℝ _ _ 2 (by norm_num) k r hr
  rw [Nat.cast_ofNat] at h
  exact h.symm

theorem expo_ge (x : ℝ) : -126 ≤ expo x := le_max_right _ _

theorem expo_neg (x : ℝ) : expo (-x) = expo x := by
  unfold expo
  rw [abs_neg]

theorem expo_zero : expo 0 = 0 := by
  unfold expo
  simp

theorem abs_lt_zpow_expo (x : ℝ) : |x| < 2 ^ (expo x + 1) := by
  rcases eq_or_ne x 0 with h | h
  · rw [h, abs_zero]; exact two_zpow_pos _
  · have hpos : 0 < |x| := abs_pos.mpr h
    rw [← log_lt_iff hpos]
    have : Int.log 2 |x| ≤ expo x := le_max_left _ _
    omega

theorem expo_eq_of_bounds {x : ℝ} {e : ℤ} (he : -126 ≤ e) (h1 : 2 ^ e ≤ |x|)
    (h2 : |x| < 2 ^ (e + 1)) : expo x = e := by
  have hpos : 0 < |x| := lt_of_lt_of_le (two_zpow_pos e) h1
  have ha : e ≤ Int.log 2 |x| := (le_log_iff hpos e).mpr h1
  have hb : Int.log 2 |x| < e + 1 := (log_lt_iff hpos (e + 1)).mpr h2
  unfold expo
  rw [max_eq_left (by omega)]
  omega

theorem expo_of_lt {x : ℝ} (h : |x| < 2 ^ (-125 : ℤ)) : x ≠ 0 → expo x = -126 := by
  intro hx
  have hpos : 0 < |x| := abs_pos.mpr hx
  have hb : Int.log 2 |x| < -125 := (log_lt_iff hpos (-125)).mpr h
  unfold expo
  rcases le_total (Int.log 2 |x|) (-126) with h1 | h1
  · exact max_eq_right h1
  · rw [max_eq_left h1]; omega

theorem zpow_expo_le {x : ℝ} (hx : x ≠ 0) (he : -126 < expo x) : 2 ^ expo x ≤ |x| := by
  have hpos : 0 < |x| := abs_pos.mpr hx
  have hlog : expo x = Int.log 2 |x| := by
    unfold expo at he ⊢
    rcases le_total (Int.log 2 |x|) (-126) with h1 | h1
    · rw [max_eq_right h1] at he; omega
    · exact max_eq_left h1
  rw [← le_log_iff hpos, hlog]

theorem rnd_zero : rnd 0 = 0 := by
  unfold rnd
  rw [zero_div]
  have : roundEven 0 = 0 := by
    have := roundEven_intCast 0
    simpa using this
  rw [this]
  simp

theorem rnd_neg (x : ℝ) : rnd (-x) = -rnd x := by
  unfold rnd
  rw [expo_neg, neg_div, roundEven_neg]
  push_cast
  ring

theorem rnd_nonneg {x : ℝ} (hx : 0 ≤ x) : 0 ≤ rnd x := by
  unfold rnd
  have hu := two_zpow_pos (expo x - 23)
  have hm : ((0 : ℤ) : ℝ) ≤ x / 2 ^ (expo x - 23) := by
    rw [Int.cast_zero]; positivity
  have hn : (0 : ℤ) ≤ roundEven (x / 2 ^ (expo x - 23)) := le_roundEven hm
  have hn2 : (0 : ℝ) ≤ (roundEven (x / 2 ^ (expo x - 23)) : ℝ) := by exact_mod_cast hn
  positivity

/-- A multiple of the unit in the last place of `y` that is at most `y` is at most the
rounded value. -/
theorem le_rnd_of_grid {a y : ℝ} (N : ℤ) (ha : a = (N : ℝ) * 2 ^ (expo y - 23))
    (h : a ≤ y) : a ≤ rnd y := by
  unfold rnd
  have hu := two_zpow_pos (expo y - 23)
  have hm : (N : ℝ) ≤ y / 2 ^ (expo y - 23) := by
    rw [le_div_iff₀ hu, ← ha]; exact h
  have hn : N ≤ roundEven (y / 2 ^ (expo y - 23)) := le_roundEven hm
  have hn2 : (N : ℝ) ≤ (roundEven (y / 2 ^ (expo y - 23)) : ℝ) := by exact_mod_cast hn
  rw [ha]
  exact mul_le_mul_of_nonneg_right hn2 hu.le

theorem rnd_le_of_grid {a y : ℝ} (N : ℤ) (ha : a = (N : ℝ) * 2 ^ (expo y - 23))
    (h : y ≤ a) : rnd y ≤ a := by
  unfold rnd
  have hu := two_zpow_pos (expo y - 23)
  have hm : y / 2 ^ (expo y - 23) ≤ (N : ℝ) := by
    rw [div_le_iff₀ hu, ← ha]; exact h
  have hn : roundEven (y / 2 ^ (expo y - 23)) ≤ N := roundEven_le hm
  have hn2 : (roundEven (y / 2 ^ (expo y - 23)) : ℝ) ≤ (N : ℝ) := by exact_mod_cast hn
  rw [ha]
  exact mul_le_mul_of_nonneg_right hn2 hu.le

/-- A value on the grid of its own binade is left unchanged. -/
theorem rnd_eq_self_of_grid {r : ℝ} (N : ℤ) (hr : r = (N : ℝ) * 2 ^ (expo r - 23)) :
    rnd r = r :=
  le_antisymm (rnd_le_of_grid N hr le_rfl) (le_rnd_of_grid N hr le_rfl)

/-- Powers of two multiplied by an integer: `2 ^ k` with `k ≥ j` is an integer multiple
of `2 ^ j`. -/
theorem zpow_eq_int_mul {k j : ℤ} (h : j ≤ k) :
    (2 : ℝ) ^ k = (((2 : ℤ) ^ (k - j).toNat : ℤ) : ℝ) * 2 ^ j := by
  have h1 : ((k - j).toNat : ℤ) = k - j := Int.toNat_of_nonneg (by omega)
  push_cast
  rw [← zpow_natCast, h1, ← zpow_add₀ (by norm_num : (2 : ℝ) ≠ 0)]
  congr 1
  omega

theorem rnd_zpow {k : ℤ} (hk : -126 ≤ k) : rnd (2 ^ k) = 2 ^ k := by
  have he : expo ((2 : ℝ) ^ k) = k := by
    apply expo_eq_of_bounds hk
    · rw [abs_of_pos (two_zpow_pos k)]
    · rw [abs_of_pos (two_zpow_pos k)]
      exact zpow_lt_zpow_right₀ (by norm_num) (by omega)
  apply rnd_eq_self_of_grid ((2 : ℤ) ^ (k - (k - 23)).toNat)
  rw [he]
  exact zpow_eq_int_mul (by omega)

end binary32

namespace binary32

/-- The lower end of the binade of `y` is not above the rounded value. -/
theorem zpow_expo_le_rnd {y : ℝ} (h : 2 ^ expo y ≤ y) : 2 ^ expo y ≤ rnd y :=
  le_rnd_of_grid ((2 : ℤ) ^ (expo y - (expo y - 23)).toNat) (zpow_eq_int_mul (by omega)) h

theorem zpow_le_rnd {k : ℤ} {y : ℝ} (hk : -126 ≤ k) (h : 2 ^ k ≤ y) : 2 ^ k ≤ rnd y := by
  have hy : 0 < y := lt_of_lt_of_le (two_zpow_pos k) h
  have habs : |y| = y := abs_of_pos hy
  have hlt := abs_lt_zpow_expo y
  rw [habs] at hlt
  have hke : k ≤ expo y := by
    have h1 : (2 : ℝ) ^ k < 2 ^ (expo y + 1) := lt_of_le_of_lt h hlt
    have h2 : k < expo y + 1 := (zpow_lt_zpow_iff_right₀ (by norm_num)).mp h1
    omega
  have hle : (2 : ℝ) ^ expo y ≤ y := by
    rcases eq_or_lt_of_le (expo_ge y) with h1 | h1
    · have : expo y = k := by omega
      rw [this]; exact h
    · have := zpow_expo_le hy.ne.symm h1
      rw [habs] at this
      exact this
  exact le_trans (zpow_le_zpow_right₀ (by norm_num) hke) (zpow_expo_le_rnd hle)

theorem rnd_rnd (x : ℝ) : rnd (rnd x) = rnd x := by
  have key : ∀ x : ℝ, 0 < x → rnd (rnd x) = rnd x := by
    intro x hx
    have habs : |x| = x := abs_of_pos hx
    have hu := two_zpow_pos (expo x - 23)
    have hlt := abs_lt_zpow_expo x
    rw [habs] at hlt
    have hm0 : ((0 : ℤ) : ℝ) ≤ x / 2 ^ (expo x - 23) := by
      rw [Int.cast_zero]; positivity
    have hn0 : 0 ≤ roundEven (x / 2 ^ (expo x - 23)) := le_roundEven hm0
    have h24 : (2 : ℝ) ^ (expo x + 1) = (((2 : ℤ) ^ 24 : ℤ) : ℝ) * 2 ^ (expo x - 23) := by
      have := zpow_eq_int_mul (show expo x - 23 ≤ expo x + 1 by omega)
      have e : (expo x + 1 - (expo x - 23)).toNat = 24 := by omega
      rw [e] at this
      exact this
    have hm24 : x / 2 ^ (expo x - 23) ≤ (((2 : ℤ) ^ 24 : ℤ) : ℝ) := by
      rw [div_le_iff₀ hu, ← h24]; exact hlt.le
    have hn24 : roundEven (x / 2 ^ (expo x - 23)) ≤ 2 ^ 24 := roundEven_le hm24
    have hr : rnd x = (roundEven (x / 2 ^ (expo x - 23)) : ℝ) * 2 ^ (expo x - 23) := rfl
    rcases eq_or_lt_of_le hn24 with htop | htop
    · -- the rounded value is the next power of two
      have : rnd x = 2 ^ (expo x + 1) := by
        rw [hr, htop, h24]
      rw [this]
      exact rnd_zpow (by have := expo_ge x; omega)
    · rcases eq_or_lt_of_le hn0 with hz | hz
      · have : rnd x = 0 := by rw [hr, ← hz]; simp
        rw [this, rnd_zero]
      · -- the rounded value lies in the binade of `x`
        have hnr : (0 : ℝ) < (roundEven (x / 2 ^ (expo x - 23)) : ℝ) := by exact_mod_cast hz
        have hrpos : 0 < rnd x := by rw [hr]; positivity
        have hrlt : rnd x < 2 ^ (expo x + 1) := by
          rw [hr, h24]
          apply mul_lt_mul_of_pos_right _ hu
          exact_mod_cast htop
        have hexp : expo (rnd x) = expo x := by
          rcases eq_or_lt_of_le (expo_ge x) with h1 | h1
          · rw [← h1] at hrlt ⊢
            apply expo_of_lt _ hrpos.ne.symm
            rw [abs_of_pos hrpos]
            have e : (-126 : ℤ) + 1 = -125 := by norm_num
            rw [e] at hrlt
            exact hrlt
          · apply expo_eq_of_bounds (expo_ge x)
            · rw [abs_of_pos hrpos]
              have h2 := zpow_expo_le hx.ne.symm h1
              rw [habs] at h2
              exact zpow_expo_le_rnd h2
            · rw [abs_of_pos hrpos]; exact hrlt
        apply rnd_eq_self_of_grid (roundEven (x / 2 ^ (expo x - 23)))
        rw [hexp]
        exact hr
  rcases lt_trichotomy x 0 with h | h | h
  · have h1 := key (-x) (by linarith)
    rw [rnd_neg, rnd_neg] at h1
    linarith
  · rw [h, rnd_zero, rnd_zero]
  · exact key x h

theorem natCast_eq_grid {n : ℕ} {e : ℤ} (he : e ≤ 23) :
    (n : ℝ) = (((n : ℤ) * (2 : ℤ) ^ (23 - e).toNat : ℤ) : ℝ) * 2 ^ (e - 23) := by
  have h1 : ((23 - e).toNat : ℤ) = 23 - e := Int.toNat_of_nonneg (by omega)
  push_cast
  rw [mul_assoc, ← zpow_natCast, h1, ← zpow_add₀ (by norm_num : (2 : ℝ) ≠ 0)]
  have : (23 - e) + (e - 23) = 0 := by omega
  rw [this, zpow_zero, mul_one]

theorem le_rnd_of_natCast_le {n : ℕ} {y : ℝ} (hn : n ≤ 2 ^ 24) (h : (n : ℝ) ≤ y) :
    (n : ℝ) ≤ rnd y := by
  rcases Nat.eq_zero_or_pos n with h0 | h0
  · rw [h0, Nat.cast_zero] at h ⊢
    exact rnd_nonneg h
  · rcases le_or_lt (expo y) 23 with he | he
    · exact le_rnd_of_grid _ (natCast_eq_grid he) h
    · have hy : 0 < y := lt_of_lt_of_le (by exact_mod_cast h0) h
      have h2 := zpow_expo_le hy.ne.symm (by omega)
      rw [abs_of_pos hy] at h2
      have h3 := zpow_expo_le_rnd h2
      have h4 : (2 : ℝ) ^ (24 : ℤ) ≤ 2 ^ expo y := zpow_le_zpow_right₀ (by norm_num) (by omega)
      have h5 : (n : ℝ) ≤ 2 ^ (24 : ℤ) := by
        have : (n : ℝ) ≤ ((2 ^ 24 : ℕ) : ℝ) := by exact_mod_cast hn
        rw [zpow_ofNat]; exact_mod_cast hn
      linarith

theorem rnd_le_of_le_natCast {n : ℕ} {y : ℝ} (hn : n ≤ 2 ^ 24) (h0 : 0 ≤ y)
    (h : y ≤ (n : ℝ)) : rnd y ≤ (n : ℝ) := by
  rcases le_or_lt (expo y) 23 with he | he
  · exact rnd_le_of_grid _ (natCast_eq_grid he) h
  · have hy : y ≠ 0 := by
      intro h1
      rw [h1, expo_zero] at he
      omega
    have hypos : 0 < y := lt_of_le_of_ne h0 (Ne.symm hy)
    have h2 := zpow_expo_le hy (by omega)
    rw [abs_of_pos hypos] at h2
    have h5 : (n : ℝ) ≤ 2 ^ (24 : ℤ) := by
      rw [zpow_ofNat]; exact_mod_cast hn
    have h6 : (2 : ℝ) ^ expo y ≤ 2 ^ (24 : ℤ) := by linarith
    have h7 : expo y ≤ 24 := (zpow_le_zpow_iff_right₀ (by norm_num)).mp h6
    have h8 : expo y = 24 := by omega
    rw [h8] at h2
    have hn24 : (n : ℝ) = 2 ^ (24 : ℤ) := le_antisymm h5 (by linarith)
    have hy24 : y = 2 ^ (24 : ℤ) := le_antisymm (by linarith) h2
    rw [hy24, rnd_zpow (by norm_num), hn24]

theorem rnd_natCast {n : ℕ} (hn : n ≤ 2 ^ 24) : rnd (n : ℝ) = n :=
  le_antisymm (rnd_le_of_le_natCast hn (Nat.cast_nonneg n) le_rfl)
    (le_rnd_of_natCast_le hn le_rfl)

end binary32

namespace binary32

theorem toF32_eq_finite {x : ℝ} (h1 : rnd x < 2 ^ 128) (h2 : -2 ^ 128 < rnd x) :
    toF32 x = F32.finite (rnd x) := by
  unfold toF32
  rw [if_neg (not_le.mpr h1), if_neg (not_le.mpr h2)]

theorem rnd_of_toF32_eq_finite {x p : ℝ} (h : toF32 x = F32.finite p) : rnd x = p := by
  unfold toF32 at h
  split_ifs at h
  exact F32.finite.inj h

theorem toF32_zero : toF32 0 = F32.finite 0 := by
  rw [toF32_eq_finite] <;> rw [rnd_zero] <;> norm_num

theorem roundEven_eq_of_gt {m : ℝ} (f : ℤ) (h1 : (f : ℝ) + 1 / 2 < m) (h2 : m < (f : ℝ) + 1) :
    roundEven m = f + 1 := by
  have hf : ⌊m⌋ = f := by
    rw [Int.floor_eq_iff]
    constructor <;> linarith
  unfold roundEven
  rw [hf, if_neg (by linarith), if_pos (by linarith)]

theorem roundEven_eq_of_lt {m : ℝ} (f : ℤ) (h1 : (f : ℝ) ≤ m) (h2 : m < (f : ℝ) + 1 / 2) :
    roundEven m = f := by
  have hf : ⌊m⌋ = f := by
    rw [Int.floor_eq_iff]
    constructor <;> linarith
  unfold roundEven
  rw [hf, if_pos (by linarith)]

/-- Every real in `(1 - 2^-25, 1)` rounds to `1`. -/
theorem rnd_eq_one {v : ℝ} (h1 : 1 - 1 / 2 ^ 25 < v) (h2 : v < 1) : rnd v = 1 := by
  have hv : 0 < v := by
    have : (0 : ℝ) < 1 - 1 / 2 ^ 25 := by norm_num
    linarith
  have he : expo v = -1 := by
    apply expo_eq_of_bounds (by norm_num)
    · rw [abs_of_pos hv]
      have h3 : (2 : ℝ) ^ (-1 : ℤ) ≤ 1 - 1 / 2 ^ 25 := by norm_num
      exact le_trans h3 h1.le
    · rw [abs_of_pos hv]
      norm_num
      exact h2
  unfold rnd
  rw [he]
  have hm : roundEven (v / 2 ^ ((-1 : ℤ) - 23)) = (2 ^ 24 - 1 : ℤ) + 1 := by
    apply roundEven_eq_of_gt
    · rw [lt_div_iff₀ (two_zpow_pos _)]
      norm_num
      norm_num at h1
      linarith
    · rw [div_lt_iff₀ (two_zpow_pos _)]
      norm_num
      exact h2
  rw [hm]
  norm_num

theorem pow255_small_bounds :
    1 - 1 / 2 ^ 25 < (255 / 256 : ℝ) ^ ((2 : ℝ) ^ (-40 : ℤ)) ∧
      (255 / 256 : ℝ) ^ ((2 : ℝ) ^ (-40 : ℤ)) < 1 := by
  have ht0 : (0 : ℝ) < 2 ^ (-40 : ℤ) := two_zpow_pos _
  have ht1 : (2 : ℝ) ^ (-40 : ℤ) ≤ 1 := by norm_num
  constructor
  · have hb := @rpow_one_add_le_one_add_mul_self (1 / 255 : ℝ) (by norm_num) _ ht0.le ht1
    have hbase : (255 / 256 : ℝ) = (1 + 1 / 255)⁻¹ := by norm_num
    rw [hbase, Real.inv_rpow (by norm_num)]
    have hpos : (0 : ℝ) < (1 + 1 / 255) ^ ((2 : ℝ) ^ (-40 : ℤ)) :=
      Real.rpow_pos_of_pos (by norm_num) _
    rw [lt_inv_comm₀ (by norm_num) hpos]
    refine lt_of_le_of_lt hb ?_
    norm_num
  · exact Real.rpow_lt_one (by norm_num) (by norm_num) ht0

end binary32

namespace timedata
namespace f32

open binary32

theorem fdiv_one_zpow40 :
    fdiv (F32.finite 1) (F32.finite (2 ^ 40)) = F32.finite (2 ^ (-40 : ℤ)) := by
  have hne : (2 : ℝ) ^ 40 ≠ 0 := by norm_num
  have hq : (1 : ℝ) / 2 ^ 40 = 2 ^ (-40 : ℤ) := by norm_num
  have hr : rnd ((2 : ℝ) ^ (-40 : ℤ)) = 2 ^ (-40 : ℤ) := rnd_zpow (by norm_num)
  simp only [fdiv, if_neg hne, hq]
  rw [toF32_eq_finite, hr] <;> rw [hr] <;> norm_num

theorem pow255_zpow40 : pow255 (F32.finite (2 ^ (-40 : ℤ))) = F32.finite 1 := by
  have hr : rnd ((255 / 256 : ℝ) ^ ((2 : ℝ) ^ (-40 : ℤ))) = 1 :=
    rnd_eq_one pow255_small_bounds.1 pow255_small_bounds.2
  simp only [pow255]
  rw [toF32_eq_finite, hr] <;> rw [hr] <;> norm_num

theorem fsub_one_one : fsub (F32.finite 1) (F32.finite 1) = F32.finite 0 := by
  simp only [fsub, fneg, fadd]
  rw [add_neg_cancel, toF32_zero]

theorem fdiv_one_zero : fdiv (F32.finite 1) (F32.finite 0) = F32.pinf := by
  simp [fdiv, infWithSign]

/-- Counterexample to C2: at `gamma = 2^40` the binary32 power rounds to `1.0f`, `diff` is
`0`, `1.0f / diff` is `+∞` and its conversion to `size_t` is undefined: no table of length
at least `1` is built. -/
theorem gammaTableSize_large_gamma :
    fsub (F32.finite 1) (pow255 (fdiv (F32.finite 1) (F32.finite (2 ^ 40)))) = F32.finite 0 ∧
    gammaTableSize (F32.finite (2 ^ 40)) = none := by
  have hdiff : fsub (F32.finite 1) (pow255 (fdiv (F32.finite 1) (F32.finite (2 ^ 40)))) =
      F32.finite 0 := by
    rw [fdiv_one_zpow40, pow255_zpow40, fsub_one_one]
  refine ⟨hdiff, ?_⟩
  unfold gammaTableSize
  simp only [hdiff, fdiv_one_zero, toSizeT]

end f32
end timedata

namespace binary32

theorem rnd_one : rnd 1 = 1 := by
  have := rnd_zpow (show (-126 : ℤ) ≤ 0 by norm_num)
  simpa using this

theorem fmax_finite_zero (v : ℝ) :
    fmax (F32.finite v) (F32.finite 0) = F32.finite (max v 0) := by
  unfold fmax flt
  by_cases h : v < 0
  · simp [h, max_eq_right h.le]
  · simp [h, max_eq_left (not_lt.mp h)]

theorem ofSizeT_of_repr {n : ℕ} (hsz : n < 2 ^ 64) (hrep : rnd (n : ℝ) = n) :
    ofSizeT n = F32.finite n := by
  have h1 : (n : ℝ) < 2 ^ 64 := by exact_mod_cast hsz
  have h0 : (0 : ℝ) ≤ (n : ℝ) := Nat.cast_nonneg n
  unfold ofSizeT
  rw [toF32_eq_finite, hrep] <;> rw [hrep]
  · have : (2 : ℝ) ^ 64 < 2 ^ 128 := by norm_num
    linarith
  · have : (-2 : ℝ) ^ 128 = 2 ^ 128 := by norm_num
    have : -(2 : ℝ) ^ 128 < 0 := by norm_num
    linarith

theorem toSizeT_finite {p : ℝ} (h1 : -1 < p) (h2 : p < 2 ^ 64) :
    toSizeT (F32.finite p) = some ⌊p⌋₊ := by
  simp [toSizeT, h1, h2]

theorem toSizeT_finite_of_le {p : ℝ} (h2 : 2 ^ 64 ≤ p) : toSizeT (F32.finite p) = none := by
  have : ¬ (p < 2 ^ 64) := not_lt.mpr h2
  simp [toSizeT, this]

/-- A result of `round` that is at least `2^64` has no conversion to `size_t`. -/
theorem toSizeT_toF32_of_le {x : ℝ} (h : 2 ^ 64 ≤ rnd x) : toSizeT (toF32 x) = none := by
  unfold toF32
  split_ifs
  · rfl
  · rfl
  · exact toSizeT_finite_of_le h

end binary32

namespace timedata
namespace f32

open binary32

theorem getGammaIndex_of_product (table : List ℕ) (x : F32) {p : ℝ}
    (hp : fmul (ofSizeT table.length) (fmax x (F32.finite 0)) = F32.finite p)
    (h1 : -1 < p) (h2 : p < 2 ^ 64) :
    getGammaIndex table x = some (min ⌊p⌋₊ (table.length - 1)) := by
  unfold getGammaIndex
  rw [hp, toSizeT_finite h1 h2]

theorem getGamma_of_product (table : List ℕ) (x : F32) {p : ℝ}
    (hp : fmul (ofSizeT table.length) (fmax x (F32.finite 0)) = F32.finite p)
    (h1 : -1 < p) (h2 : p < 2 ^ 64) :
    getGamma table x = table[min ⌊p⌋₊ (table.length - 1)]? := by
  unfold getGamma
  rw [getGammaIndex_of_product table x hp h1 h2]

theorem getGamma_of_undefined (table : List ℕ) (x : F32)
    (h : toSizeT (fmul (ofSizeT table.length) (fmax x (F32.finite 0))) = none) :
    getGamma table x = none := by
  unfold getGamma getGammaIndex
  rw [h]

/-- The product of `getGamma` for a finite `x ≤ 1` on a table of at most `2^24` entries. -/
theorem product_of_le_one (n : ℕ) (hn : n ≤ 2 ^ 24) (v : ℝ) (hv : v ≤ 1) :
    fmul (ofSizeT n) (fmax (F32.finite v) (F32.finite 0)) =
        F32.finite (rnd ((n : ℝ) * max v 0)) ∧
      0 ≤ rnd ((n : ℝ) * max v 0) ∧ rnd ((n : ℝ) * max v 0) ≤ n := by
  have hn64 : n < 2 ^ 64 := lt_of_le_of_lt hn (by norm_num)
  have hn0 : (0 : ℝ) ≤ (n : ℝ) := Nat.cast_nonneg n
  have hw0 : (0 : ℝ) ≤ max v 0 := le_max_right _ _
  have hw1 : max v 0 ≤ 1 := max_le hv zero_le_one
  have hy0 : (0 : ℝ) ≤ (n : ℝ) * max v 0 := mul_nonneg hn0 hw0
  have hy1 : (n : ℝ) * max v 0 ≤ n := by nlinarith
  have hr0 := rnd_nonneg hy0
  have hr1 := rnd_le_of_le_natCast hn hy0 hy1
  have hn24 : (n : ℝ) ≤ 2 ^ 24 := by exact_mod_cast hn
  refine ⟨?_, hr0, hr1⟩
  rw [ofSizeT_of_repr hn64 (rnd_natCast hn), fmax_finite_zero]
  simp only [fmul]
  apply toF32_eq_finite
  · have : (2 : ℝ) ^ 24 < 2 ^ 128 := by norm_num
    linarith
  · have : -(2 : ℝ) ^ 128 < 0 := by norm_num
    linarith

theorem toF32_natCast_cases (n : ℕ) :
    toF32 (n : ℝ) = F32.pinf ∨ ∃ a : ℝ, toF32 (n : ℝ) = F32.finite a ∧ 0 ≤ a := by
  have hr := rnd_nonneg (Nat.cast_nonneg n : (0 : ℝ) ≤ (n : ℝ))
  unfold toF32
  split_ifs with h1 h2
  · exact Or.inl rfl
  · have : -(2 : ℝ) ^ 128 < 0 := by norm_num
    linarith
  · exact Or.inr ⟨_, rfl, hr⟩

/-- A finite product `float(n) * max(x, 0.0f)` is not negative. -/
theorem product_nonneg (n : ℕ) (x : F32) {p : ℝ}
    (hp : fmul (ofSizeT n) (fmax x (F32.finite 0)) = F32.finite p) : 0 ≤ p := by
  have hfin : ∀ w : ℝ, 0 ≤ w → fmul (ofSizeT n) (F32.finite w) = F32.finite p → 0 ≤ p := by
    intro w hw h
    unfold ofSizeT at h
    rcases toF32_natCast_cases n with h1 | ⟨a, h1, ha⟩
    · rw [h1] at h
      simp only [fmul] at h
      split_ifs at h
      unfold infWithSign at h
      split_ifs at h
    · rw [h1] at h
      simp only [fmul] at h
      rw [← rnd_of_toF32_eq_finite h]
      exact rnd_nonneg (mul_nonneg ha hw)
  cases x with
  | finite v =>
    rw [fmax_finite_zero] at hp
    exact hfin _ (le_max_right _ _) hp
  | pinf =>
    have hm : fmax F32.pinf (F32.finite 0) = F32.pinf := by simp [fmax, flt]
    rw [hm] at hp
    unfold ofSizeT at hp
    rcases toF32_natCast_cases n with h1 | ⟨a, h1, -⟩
    · rw [h1] at hp
      simp only [fmul] at hp
      exact absurd hp (by simp)
    · rw [h1] at hp
      simp only [fmul] at hp
      split_ifs at hp
      unfold infWithSign at hp
      split_ifs at hp
  | ninf =>
    have hm : fmax F32.ninf (F32.finite 0) = F32.finite 0 := by simp [fmax, flt]
    rw [hm] at hp
    exact hfin 0 le_rfl hp
  | nan =>
    have hm : fmax F32.nan (F32.finite 0) = F32.nan := by simp [fmax, flt]
    rw [hm] at hp
    unfold ofSizeT at hp
    rcases toF32_natCast_cases n with h1 | ⟨a, h1, -⟩
    · rw [h1] at hp
      simp only [fmul] at hp
      exact absurd hp (by simp)
    · rw [h1] at hp
      simp only [fmul] at hp
      exact absurd hp (by simp)

/-- C3 (amended): for a non-empty table and a float `x` whose binary32 product
`p = float(table.size()) * max(x, 0.0f)` is finite and below `2^64`, `p` is not negative
and `getGamma(table, x)` reads the table at index `min(floor(p), table.size() - 1)`, which
is below `table.size()`; when the product is `2^64` or more, an infinity or NaN, the
conversion to `size_t` is undefined.  On a table of at most `2^24` entries every finite
`x ≤ 1` has such a product, with `0 ≤ p ≤ size`. -/
theorem getGamma_in_bounds_f32 (table : List ℕ) (x : F32) (h : table ≠ []) :
    (∀ p : ℝ, fmul (ofSizeT table.length) (fmax x (F32.finite 0)) = F32.finite p →
      p < 2 ^ 64 →
      0 ≤ p ∧ getGammaIndex table x = some (min ⌊p⌋₊ (table.length - 1)) ∧
      ∃ hlt : min ⌊p⌋₊ (table.length - 1) < table.length,
        getGamma table x = some (table.get ⟨min ⌊p⌋₊ (table.length - 1), hlt⟩)) ∧
    (∀ p : ℝ, fmul (ofSizeT table.length) (fmax x (F32.finite 0)) = F32.finite p →
      2 ^ 64 ≤ p → getGamma table x = none) ∧
    (fmul (ofSizeT table.length) (fmax x (F32.finite 0)) = F32.pinf →
      getGamma table x = none) ∧
    (fmul (ofSizeT table.length) (fmax x (F32.finite 0)) = F32.nan →
      getGamma table x = none) ∧
    (table.length ≤ 2 ^ 24 → ∀ v : ℝ, x = F32.finite v → v ≤ 1 →
      ∃ p : ℝ, fmul (ofSizeT table.length) (fmax x (F32.finite 0)) = F32.finite p ∧
        0 ≤ p ∧ p ≤ table.length) := by
  have hl : 0 < table.length := List.length_pos.mpr h
  refine ⟨?_, ?_, ?_, ?_, ?_⟩
  · intro p hp h2
    have h0 := product_nonneg table.length x hp
    have h1 : -1 < p := by linarith
    have hlt : min ⌊p⌋₊ (table.length - 1) < table.length := by
      have := min_le_right ⌊p⌋₊ (table.length - 1)
      omega
    refine ⟨h0, getGammaIndex_of_product table x hp h1 h2, hlt, ?_⟩
    rw [getGamma_of_product table x hp h1 h2, List.getElem?_eq_getElem hlt]
    rfl
  · intro p hp h2
    apply getGamma_of_undefined
    rw [hp]
    exact toSizeT_finite_of_le h2
  · intro hp
    apply getGamma_of_undefined
    rw [hp]
    rfl
  · intro hp
    apply getGamma_of_undefined
    rw [hp]
    rfl
  · intro hn v hx hv
    subst hx
    obtain ⟨h1, h2, h3⟩ := product_of_le_one table.length hn v hv
    exact ⟨_, h1, h2, h3⟩

/-- Witness of C3 (amended) at the table `[0, 7, 255]` and `x = 0.5`. -/
theorem getGamma_in_bounds_f32_witness :
    ([0, 7, 255] : List ℕ) ≠ [] ∧
      ∃ p : ℝ, fmul (ofSizeT ([0, 7, 255] : List ℕ).length)
          (fmax (F32.finite (1 / 2)) (F32.finite 0)) = F32.finite p ∧
        0 ≤ p ∧ p ≤ ([0, 7, 255] : List ℕ).length :=
  ⟨by simp, (getGamma_in_bounds_f32 [0, 7, 255] (F32.finite (1 / 2)) (by simp)).2.2.2.2
    (by simp) (1 / 2) rfl (by norm_num)⟩

end f32
end timedata

namespace timedata
namespace f32

open binary32

theorem rnd_ten_mul_seven_tenths : rnd ((10 : ℝ) * (11744051 / 2 ^ 24)) = 7 := by
  have he : expo ((10 : ℝ) * (11744051 / 2 ^ 24)) = 2 := by
    apply expo_eq_of_bounds (by norm_num)
    · rw [abs_of_pos (by norm_num)]; norm_num
    · rw [abs_of_pos (by norm_num)]; norm_num
  unfold rnd
  rw [he]
  have hm : roundEven ((10 : ℝ) * (11744051 / 2 ^ 24) / 2 ^ ((2 : ℤ) - 23)) =
      (14680063 : ℤ) + 1 := by
    apply roundEven_eq_of_gt
    · rw [lt_div_iff₀ (two_zpow_pos _)]; norm_num
    · rw [div_lt_iff₀ (two_zpow_pos _)]; norm_num
  rw [hm]
  norm_num

/-- Counterexample to C3: on the one-entry table `[0]` the input `x = 2^64` makes the
product `2^64`, whose conversion to `size_t` is undefined, so no in-bounds read is
guaranteed; and on a table of ten entries the input `x = 0.7f` reads index `7`, the
rounded product being `7.0`, while `floor(10 * x)` of the exact product is `6`. -/
theorem getGamma_f32_not_in_bounds :
    getGamma [0] (F32.finite (2 ^ 64)) = none ∧
    getGamma [0, 1, 2, 3, 4, 5, 6, 7, 8, 9] (F32.finite (11744051 / 2 ^ 24)) = some 7 ∧
    ([0, 1, 2, 3, 4, 5, 6, 7, 8, 9] : List ℕ)[min ⌊(10 : ℝ) * max (11744051 / 2 ^ 24) 0⌋₊
      (([0, 1, 2, 3, 4, 5, 6, 7, 8, 9] : List ℕ).length - 1)]? = some 6 := by
  refine ⟨?_, ?_, ?_⟩
  · apply getGamma_of_undefined
    have h1 : ofSizeT ([0] : List ℕ).length = F32.finite 1 := by
      have := @ofSizeT_of_repr 1 (by norm_num) (by simpa using rnd_one)
      simpa using this
    rw [h1, fmax_finite_zero]
    simp only [fmul]
    apply toSizeT_toF32_of_le
    have h2 : (1 : ℝ) * max (2 ^ 64) 0 = 2 ^ (64 : ℤ) := by
      rw [max_eq_left (by norm_num)]; norm_num
    rw [h2, rnd_zpow (by norm_num)]
    norm_num
  · have h1 : ofSizeT ([0, 1, 2, 3, 4, 5, 6, 7, 8, 9] : List ℕ).length = F32.finite 10 := by
      have := @ofSizeT_of_repr 10 (by norm_num) (rnd_natCast (by norm_num))
      simpa using this
    have hp : fmul (ofSizeT ([0, 1, 2, 3, 4, 5, 6, 7, 8, 9] : List ℕ).length)
        (fmax (F32.finite (11744051 / 2 ^ 24)) (F32.finite 0)) = F32.finite 7 := by
      rw [h1, fmax_finite_zero, max_eq_left (by norm_num)]
      simp only [fmul]
      rw [toF32_eq_finite, rnd_ten_mul_seven_tenths] <;>
        rw [rnd_ten_mul_seven_tenths] <;> norm_num
    rw [getGamma_of_product _ _ hp (by norm_num) (by norm_num)]
    have hf : ⌊(7 : ℝ)⌋₊ = 7 := by
      rw [Nat.floor_eq_iff (by norm_num)]
      norm_num
    rw [hf]
    rfl
  · have hf : ⌊(10 : ℝ) * max (11744051 / 2 ^ 24) 0⌋₊ = 6 := by
      rw [max_eq_left (by norm_num), Nat.floor_eq_iff (by norm_num)]
      norm_num
    rw [hf]
    rfl

end f32
end timedata

namespace timedata
namespace f32

open binary32

end f32
end timedata

namespace timedata
namespace f32

open binary32

end f32
end timedata

namespace binary32

end binary32

namespace timedata

open binary32

end timedata

namespace binary32

theorem toF32_of_mem_Icc {z : ℝ} {n : ℕ} (hn : n ≤ 2 ^ 24) (h0 : 0 ≤ z) (h1 : z ≤ (n : ℝ)) :
    toF32 z = F32.finite (rnd z) ∧ 0 ≤ rnd z ∧ rnd z ≤ (n : ℝ) := by
  have hr0 := rnd_nonneg h0
  have hr1 := rnd_le_of_le_natCast hn h0 h1
  have hn24 : (n : ℝ) ≤ 2 ^ 24 := by exact_mod_cast hn
  refine ⟨?_, hr0, hr1⟩
  apply toF32_eq_finite
  · have : (2 : ℝ) ^ 24 < 2 ^ 128 := by norm_num
    linarith
  · have : -(2 : ℝ) ^ 128 < 0 := by norm_num
    linarith

/-- The binary32 numbers below `1` are at most `1 - 2^-24`. -/
theorem le_pred_one {p : ℝ} (hrep : rnd p = p) (h1 : p < 1) : p ≤ 1 - 1 / 2 ^ 24 := by
  rcases lt_or_le p (1 / 2) with h | h
  · have : (1 / 2 : ℝ) ≤ 1 - 1 / 2 ^ 24 := by norm_num
    linarith
  · have hp : 0 < p := by linarith
    have he : expo p = -1 := by
      apply expo_eq_of_bounds (by norm_num)
      · rw [abs_of_pos hp]; norm_num; linarith
      · rw [abs_of_pos hp]; norm_num; exact h1
    have hgrid : p = (roundEven (p / 2 ^ (expo p - 23)) : ℝ) * 2 ^ (expo p - 23) := hrep.symm
    rw [he] at hgrid
    have hu : (2 : ℝ) ^ ((-1 : ℤ) - 23) = 1 / 2 ^ 24 := by norm_num
    rw [hu] at hgrid
    have hN : (roundEven (p / (1 / 2 ^ 24)) : ℝ) < 2 ^ 24 := by
      have : (roundEven (p / (1 / 2 ^ 24)) : ℝ) * (1 / 2 ^ 24) < 1 := by rw [← hgrid]; exact h1
      have h24 : (0 : ℝ) < 1 / 2 ^ 24 := by norm_num
      rw [← lt_div_iff₀ h24] at this
      norm_num at this ⊢
      exact this
    have hN2 : roundEven (p / (1 / 2 ^ 24)) < 2 ^ 24 := by exact_mod_cast hN
    have hN3 : roundEven (p / (1 / 2 ^ 24)) ≤ 2 ^ 24 - 1 := by omega
    have hN4 : (roundEven (p / (1 / 2 ^ 24)) : ℝ) ≤ 2 ^ 24 - 1 := by exact_mod_cast hN3
    rw [hgrid]
    have h24 : (0 : ℝ) ≤ 1 / 2 ^ 24 := by norm_num
    calc (roundEven (p / (1 / 2 ^ 24)) : ℝ) * (1 / 2 ^ 24)
        ≤ (2 ^ 24 - 1) * (1 / 2 ^ 24) := mul_le_mul_of_nonneg_right hN4 h24
      _ = 1 - 1 / 2 ^ 24 := by norm_num

end binary32

namespace timedata
namespace f32

open binary32

/-- The value of `std::pow(255.0f / 256.0f, 1.0f / gamma)` for `gamma > 0`: a binary32
number in `[0, 1]`. -/
theorem pow255_of_pos (g : ℝ) (hg : 0 < g) :
    ∃ p : ℝ, pow255 (fdiv (F32.finite 1) (F32.finite g)) = F32.finite p ∧
      0 ≤ p ∧ p ≤ 1 ∧ rnd p = p := by
  have hq : (0 : ℝ) ≤ 1 / g := by positivity
  have hi : fdiv (F32.finite 1) (F32.finite g) = toF32 (1 / g) := by
    simp only [fdiv, if_neg hg.ne.symm]
  rw [hi]
  have hr := rnd_nonneg hq
  have hcase : toF32 (1 / g) = F32.pinf ∨ toF32 (1 / g) = F32.finite (rnd (1 / g)) := by
    unfold toF32
    split_ifs with h1 h2
    · exact Or.inl rfl
    · have : -(2 : ℝ) ^ 128 < 0 := by norm_num
      linarith
    · exact Or.inr rfl
  rcases hcase with h | h
  · rw [h]
    exact ⟨0, rfl, le_rfl, zero_le_one, rnd_zero⟩
  · rw [h]
    simp only [pow255]
    have hv0 : (0 : ℝ) ≤ (255 / 256 : ℝ) ^ rnd (1 / g) := Real.rpow_nonneg (by norm_num) _
    have hv1 : (255 / 256 : ℝ) ^ rnd (1 / g) ≤ ((1 : ℕ) : ℝ) := by
      rw [Nat.cast_one]
      exact Real.rpow_le_one (by norm_num) (by norm_num) hr
    obtain ⟨h1, h2, h3⟩ := toF32_of_mem_Icc (by norm_num) hv0 hv1
    rw [Nat.cast_one] at h3
    exact ⟨_, h1, h2, h3, rnd_rnd _⟩

/-- The computation of the table size for `gamma > 0` in binary32: either `diff` is `0` and
no size is computed, or `diff` lies in `[2^-24, 1]`, the quotient `q = 1.0f / diff` lies in
`[1, 2^24]` and the size is `4 * floor(q)`. -/
theorem gammaTableSize_cases (g : ℝ) (hg : 0 < g) :
    (fsub (F32.finite 1) (pow255 (fdiv (F32.finite 1) (F32.finite g))) = F32.finite 0 ∧
      gammaTableSize (F32.finite g) = none) ∨
    (∃ d q : ℝ,
      fsub (F32.finite 1) (pow255 (fdiv (F32.finite 1) (F32.finite g))) = F32.finite d ∧
      1 / 2 ^ 24 ≤ d ∧ d ≤ 1 ∧
      fdiv (F32.finite 1) (F32.finite d) = F32.finite q ∧ 1 ≤ q ∧ q ≤ 2 ^ 24 ∧
      gammaTableSize (F32.finite g) = some (4 * ⌊q⌋₊)) := by
  obtain ⟨p, hp, hp0, hp1, hrep⟩ := pow255_of_pos g hg
  have hsub : fsub (F32.finite 1) (F32.finite p) = toF32 (1 - p) := by
    simp only [fsub, fneg, fadd]
    rw [sub_eq_add_neg]
  rcases eq_or_lt_of_le hp1 with h1 | h1
  · left
    have hdiff : fsub (F32.finite 1) (pow255 (fdiv (F32.finite 1) (F32.finite g))) =
        F32.finite 0 := by
      rw [hp, hsub, h1, sub_self, toF32_zero]
    refine ⟨hdiff, ?_⟩
    unfold gammaTableSize
    simp only [hdiff, fdiv_one_zero, toSizeT]
  · right
    have hgap := le_pred_one hrep h1
    have hz0 : (0 : ℝ) ≤ 1 - p := by linarith
    have hz1 : 1 - p ≤ ((1 : ℕ) : ℝ) := by rw [Nat.cast_one]; linarith
    obtain ⟨hd, -, hd1⟩ := toF32_of_mem_Icc (by norm_num) hz0 hz1
    rw [Nat.cast_one] at hd1
    have hdlow : 1 / 2 ^ 24 ≤ rnd (1 - p) := by
      have h2 : (2 : ℝ) ^ (-24 : ℤ) ≤ 1 - p := by norm_num; linarith
      have h3 := zpow_le_rnd (by norm_num) h2
      norm_num at h3 ⊢
      exact h3
    have hdpos : 0 < rnd (1 - p) := lt_of_lt_of_le (by norm_num) hdlow
    have hdiff : fsub (F32.finite 1) (pow255 (fdiv (F32.finite 1) (F32.finite g))) =
        F32.finite (rnd (1 - p)) := by
      rw [hp, hsub, hd]
    have hquot : fdiv (F32.finite 1) (F32.finite (rnd (1 - p))) =
        toF32 (1 / rnd (1 - p)) := by
      simp only [fdiv, if_neg hdpos.ne.symm]
    have hy1 : ((1 : ℕ) : ℝ) ≤ 1 / rnd (1 - p) := by
      rw [Nat.cast_one, le_div_iff₀ hdpos]; linarith
    have hy2 : 1 / rnd (1 - p) ≤ (((2 : ℕ) ^ 24 : ℕ) : ℝ) := by
      rw [div_le_iff₀ hdpos]
      push_cast
      have : (2 : ℝ) ^ 24 * (1 / 2 ^ 24) ≤ 2 ^ 24 * rnd (1 - p) :=
        mul_le_mul_of_nonneg_left hdlow (by norm_num)
      norm_num at this ⊢
      linarith
    have hy0 : (0 : ℝ) ≤ 1 / rnd (1 - p) := by positivity
    obtain ⟨hq, -, hq2⟩ := toF32_of_mem_Icc le_rfl hy0 hy2
    have hq1 : (1 : ℝ) ≤ rnd (1 / rnd (1 - p)) := by
      have := le_rnd_of_natCast_le (show 1 ≤ 2 ^ 24 by norm_num) hy1
      rw [Nat.cast_one] at this
      exact this
    have hq2' : rnd (1 / rnd (1 - p)) ≤ 2 ^ 24 := by
      have h24 : ((((2 : ℕ) ^ 24 : ℕ) : ℝ)) = 2 ^ 24 := by norm_num
      rw [h24] at hq2
      exact hq2
    refine ⟨rnd (1 - p), rnd (1 / rnd (1 - p)), hdiff, hdlow, hd1, ?_, hq1, hq2', ?_⟩
    · rw [hquot, hq]
    · unfold gammaTableSize
      simp only [hdiff, hquot, hq]
      rw [toSizeT_finite (by linarith) (by
        have : (2 : ℝ) ^ 24 < 2 ^ 64 := by norm_num
        linarith)]
      have hfl : ⌊rnd (1 / rnd (1 - p))⌋₊ ≤ 2 ^ 24 := by
        have := Nat.floor_le_floor hq2
        rw [Nat.floor_natCast] at this
        exact this
      simp only
      congr 1
      omega

end f32
end timedata

namespace timedata
namespace f32

open binary32

theorem rnd_of_grid_bounds {r : ℝ} {e : ℤ} (N : ℤ) (he : -126 ≤ e) (h1 : 2 ^ e ≤ |r|)
    (h2 : |r| < 2 ^ (e + 1)) (hr : r = (N : ℝ) * 2 ^ (e - 23)) : rnd r = r := by
  have hexp := expo_eq_of_bounds he h1 h2
  apply rnd_eq_self_of_grid N
  rw [hexp]
  exact hr

theorem gammaTableSize_f32_half : gammaTableSize (F32.finite (1 / 2)) = some 512 := by
  have hfin : ∀ z : ℝ, rnd z = z → -2 ^ 128 < z → z < 2 ^ 128 → toF32 z = F32.finite z := by
    intro z hz h1 h2
    rw [toF32_eq_finite, hz] <;> rw [hz] <;> assumption
  have h2 : rnd (2 : ℝ) = 2 := by
    have := rnd_natCast (show 2 ≤ 2 ^ 24 by norm_num)
    exact_mod_cast this
  have hi : fdiv (F32.finite 1) (F32.finite (1 / 2)) = F32.finite 2 := by
    simp only [fdiv]
    rw [if_neg (by norm_num), one_div_one_div]
    exact hfin 2 h2 (by norm_num) (by norm_num)
  have hpv : (255 / 256 : ℝ) ^ (2 : ℝ) = 65025 / 65536 := by
    rw [Real.rpow_two]; norm_num
  have hprep : rnd (65025 / 65536 : ℝ) = 65025 / 65536 := by
    apply rnd_of_grid_bounds (16646400 : ℤ) (show (-126 : ℤ) ≤ -1 by norm_num)
    · rw [abs_of_pos (by norm_num)]; norm_num
    · rw [abs_of_pos (by norm_num)]; norm_num
    · norm_num
  have hp : pow255 (F32.finite 2) = F32.finite (65025 / 65536) := by
    simp only [pow255]
    rw [hpv]
    exact hfin _ hprep (by norm_num) (by norm_num)
  have hdrep : rnd (511 / 65536 : ℝ) = 511 / 65536 := by
    apply rnd_of_grid_bounds (16744448 : ℤ) (show (-126 : ℤ) ≤ -8 by norm_num)
    · rw [abs_of_pos (by norm_num)]; norm_num
    · rw [abs_of_pos (by norm_num)]; norm_num
    · norm_num
  have hd : fsub (F32.finite 1) (F32.finite (65025 / 65536)) = F32.finite (511 / 65536) := by
    simp only [fsub, fneg, fadd]
    have : (1 : ℝ) + -(65025 / 65536) = 511 / 65536 := by norm_num
    rw [this]
    exact hfin _ hdrep (by norm_num) (by norm_num)
  have hqr : rnd ((1 : ℝ) / (511 / 65536)) = 8405024 / 65536 := by
    have he : expo ((1 : ℝ) / (511 / 65536)) = 7 := by
      apply expo_eq_of_bounds (by norm_num)
      · rw [abs_of_pos (by norm_num)]; norm_num
      · rw [abs_of_pos (by norm_num)]; norm_num
    unfold rnd
    rw [he]
    have hm : roundEven ((1 : ℝ) / (511 / 65536) / 2 ^ ((7 : ℤ) - 23)) = (8405024 : ℤ) := by
      apply roundEven_eq_of_lt
      · rw [le_div_iff₀ (two_zpow_pos _)]; norm_num
      · rw [div_lt_iff₀ (two_zpow_pos _)]; norm_num
    rw [hm]
    norm_num
  have hq : fdiv (F32.finite 1) (F32.finite (511 / 65536)) =
      F32.finite (8405024 / 65536) := by
    simp only [fdiv]
    rw [if_neg (by norm_num), toF32_eq_finite, hqr] <;> rw [hqr] <;> norm_num
  have hfl : ⌊(8405024 / 65536 : ℝ)⌋₊ = 128 := by
    rw [Nat.floor_eq_iff (by norm_num)]
    norm_num
  unfold gammaTableSize
  simp only [hi, hp, hd, hq]
  rw [toSizeT_finite (by norm_num) (by norm_num), hfl]
  rfl

end f32
end timedata

namespace timedata
namespace f32

open binary32

/-- C2 (amended): for every finite `gamma > 0`, in binary32 arithmetic either
`diff = 1.0f - pow(255/256, 1.0f/gamma)` is `0`, and then `1.0f / diff` is `+∞` and its
conversion to `size_t` is undefined, or `diff` lies in `[2^-24, 1]` and the computed size
`4 * size_t(1.0f / diff)` lies between `4` and `2^26`, so that `table.size() - 1` does not
underflow. -/
theorem gammaTableSize_pos_or_undefined (gamma : ℝ) (hg : 0 < gamma) :
    (fsub (F32.finite 1) (pow255 (fdiv (F32.finite 1) (F32.finite gamma))) = F32.finite 0 ∧
      gammaTableSize (F32.finite gamma) = none) ∨
    (∃ d : ℝ,
      fsub (F32.finite 1) (pow255 (fdiv (F32.finite 1) (F32.finite gamma))) = F32.finite d ∧
      1 / 2 ^ 24 ≤ d ∧ d ≤ 1 ∧
      ∃ n : ℕ, gammaTableSize (F32.finite gamma) = some n ∧ 4 ≤ n ∧ n ≤ 2 ^ 26) := by
  rcases gammaTableSize_cases gamma hg with h | ⟨d, q, hd, hd1, hd2, -, hq1, hq2, hsize⟩
  · exact Or.inl h
  · right
    refine ⟨d, hd, hd1, hd2, 4 * ⌊q⌋₊, hsize, ?_, ?_⟩
    · have h1 : 1 ≤ ⌊q⌋₊ := Nat.le_floor (by rw [Nat.cast_one]; exact hq1)
      omega
    · have h2 : ⌊q⌋₊ ≤ 2 ^ 24 := by
        have h3 : q ≤ (((2 : ℕ) ^ 24 : ℕ) : ℝ) := by
          have h24 : ((((2 : ℕ) ^ 24 : ℕ) : ℝ)) = 2 ^ 24 := by norm_num
          rw [h24]; exact hq2
        have := Nat.floor_le_floor h3
        rw [Nat.floor_natCast] at this
        exact this
      omega

/-- Witness of C2 (amended) at `gamma = 0.5`, where the computed size is `512`. -/
theorem gammaTableSize_pos_or_undefined_witness :
    (0 : ℝ) < 1 / 2 ∧ ∃ n : ℕ, gammaTableSize (F32.finite (1 / 2)) = some n ∧ 4 ≤ n := by
  refine ⟨by norm_num, ?_⟩
  rcases gammaTableSize_pos_or_undefined (1 / 2) (by norm_num) with h | ⟨d, -, -, -, n, hn, h4, -⟩
  · rw [gammaTableSize_f32_half] at h
    exact absurd h.2 (by simp)
  · exact ⟨n, hn, h4⟩

end f32
end timedata


/-! ## The length of the gamma table -/

namespace timedata

open binary32

/-- Counterexample to C13: at `gamma = 0.5` the table has `4 * floor(1/diff) = 512`
entries, while `floor(4 / diff)` is `513`; `diff` is `511/65536` exactly, in binary32 as
over the reals, and the size computed in binary32 is `512` too. -/
theorem makeGammaTable_length_half :
    (makeGammaTable (1 / 2) 0 255).length = 512 ∧
    ⌊4 / (1 - (255 / 256 : ℝ) ^ (1 / (1 / 2 : ℝ)))⌋₊ = 513 ∧
    (makeGammaTable (1 / 2) 0 255).length ≠
      ⌊4 / (1 - (255 / 256 : ℝ) ^ (1 / (1 / 2 : ℝ)))⌋₊ ∧
    f32.gammaTableSize (F32.finite (1 / 2)) = some 512 := by
  have h1 : (makeGammaTable (1 / 2) 0 255).length = 512 := by
    rw [makeGammaTable_length, gammaTableSize_half]
  have h2 : ⌊4 / (1 - (255 / 256 : ℝ) ^ (1 / (1 / 2 : ℝ)))⌋₊ = 513 := by
    rw [gammaDiff_half, Nat.floor_eq_iff (by norm_num)]
    norm_num
  refine ⟨h1, h2, ?_, f32.gammaTableSize_f32_half⟩
  rw [h1, h2]
  decide

/-- C13 (amended): for `gamma > 0` the length of `makeGammaTable(gamma)` is
`4 * floor(q)` with `q = 1 / diff`, a multiple of four that is at most `floor(4 * q)` and
falls short of it by at most three.  This holds with the arithmetic read over the reals,
`diff = 1 - (255/256)^(1/gamma)`, and in binary32 arithmetic, with `diff` and `q` the
rounded values, for every size that is computed. -/
theorem makeGammaTable_length_eq (gamma : ℝ) (begin_ end_ : ℕ) (hg : 0 < gamma) :
    (makeGammaTable gamma begin_ end_).length =
      4 * ⌊1 / (1 - (255 / 256 : ℝ) ^ (1 / gamma))⌋₊ ∧
    (makeGammaTable gamma begin_ end_).length ≤
      ⌊4 / (1 - (255 / 256 : ℝ) ^ (1 / gamma))⌋₊ ∧
    ⌊4 / (1 - (255 / 256 : ℝ) ^ (1 / gamma))⌋₊ ≤
      (makeGammaTable gamma begin_ end_).length + 3 ∧
    (∀ n : ℕ, f32.gammaTableSize (F32.finite gamma) = some n →
      ∃ q : ℝ,
        fdiv (F32.finite 1)
          (fsub (F32.finite 1) (pow255 (fdiv (F32.finite 1) (F32.finite gamma)))) =
            F32.finite q ∧
        n = 4 * ⌊q⌋₊ ∧ n ≤ ⌊4 * q⌋₊ ∧ ⌊4 * q⌋₊ ≤ n + 3) := by
  have hd := gammaDiff_pos hg
  have hq : (0 : ℝ) ≤ 1 / (1 - (255 / 256 : ℝ) ^ (1 / gamma)) := by positivity
  have hlen : (makeGammaTable gamma begin_ end_).length =
      4 * ⌊1 / (1 - (255 / 256 : ℝ) ^ (1 / gamma))⌋₊ := by
    rw [makeGammaTable_length]; rfl
  have h4 : 4 / (1 - (255 / 256 : ℝ) ^ (1 / gamma)) =
      4 * (1 / (1 - (255 / 256 : ℝ) ^ (1 / gamma))) := by ring
  rw [hlen, h4]
  refine ⟨rfl, (floor_four_mul_bounds hq).1, (floor_four_mul_bounds hq).2, ?_⟩
  intro n hn
  rcases f32.gammaTableSize_cases gamma hg with h | ⟨d, q, hdiff, -, -, hquot, hq1, -, hsize⟩
  · rw [h.2] at hn
    exact absurd hn (by simp)
  · rw [hsize] at hn
    have hn2 : 4 * ⌊q⌋₊ = n := Option.some.inj hn
    have hq0 : (0 : ℝ) ≤ q := by linarith
    refine ⟨q, ?_, hn2.symm, ?_, ?_⟩
    · rw [hdiff, hquot]
    · rw [← hn2]; exact (floor_four_mul_bounds hq0).1
    · rw [← hn2]; exact (floor_four_mul_bounds hq0).2

/-- Witness of C13 (amended) at `gamma = 0.5`. -/
theorem makeGammaTable_length_eq_witness :
    (0 : ℝ) < 1 / 2 ∧ (makeGammaTable (1 / 2) 0 255).length ≤
      ⌊4 / (1 - (255 / 256 : ℝ) ^ (1 / (1 / 2 : ℝ)))⌋₊ :=
  ⟨by norm_num, (makeGammaTable_length_eq (1 / 2) 0 255 (by norm_num)).2.1⟩

end timedata
